import Mathlib

/-!
Verification of the masked soften/harden custom-normals mesh editor
(`mesh_masked_smooth_normals.py`).

The development shallowly embeds the core of the addon:

* 3-component vectors (`mathutils.Vector`) become `Vec3` over `ℝ`, with the
  floating-point `normalized()` modelled by exact real normalization
  (a zero-length vector stays the zero vector, as in `mathutils`).
* The bmesh side (`bm.verts`, `v.link_faces`, `v.link_edges`, `e.link_faces`,
  selection flags, `f.normal`, `f.calc_area()`) becomes `BMVert` / `BMEdge` /
  `BMFace` records.  `f.calc_area()` is a derived scalar supplied by the host;
  it is carried as the field `calc_area`.
* The mesh-data side (`me.polygons` with `loop_start` / `loop_total` /
  `select` / `normal`, and `me.loops` with `index` / `vertex_index` /
  `normal`) becomes `BPoly` and `MLoop` records.  A loop's `normal` field is
  the per-loop split normal as recomputed by the host's
  `calc_normals_split()` immediately before each operation reads it; the
  array returned by an operation is what `normals_split_custom_set` commits.
* Python slice assignment `xs[s:s+len(seg)] = seg` becomes `writeSlice`,
  and the slice read `xs[s:s+t]` becomes `sliceL`; both reproduce Python's
  clamping behaviour for out-of-range bounds.
-/

/-- 3-vector over `ℝ`, modelling `mathutils.Vector`. -/
structure Vec3 where
  x : ℝ
  y : ℝ
  z : ℝ

instance : Zero Vec3 := ⟨⟨0, 0, 0⟩⟩

instance : Add Vec3 := ⟨fun a b => ⟨a.x + b.x, a.y + b.y, a.z + b.z⟩⟩

instance : Neg Vec3 := ⟨fun a => ⟨-a.x, -a.y, -a.z⟩⟩

instance : SMul ℝ Vec3 := ⟨fun r a => ⟨r * a.x, r * a.y, r * a.z⟩⟩

/-- `Vector * float` as used for area weighting (`f.normal * f.calc_area()`). -/
instance : HMul Vec3 ℝ Vec3 := ⟨fun a r => ⟨a.x * r, a.y * r, a.z * r⟩⟩

/-- Euclidean length of a `Vec3` (`Vector.length`). -/
noncomputable def Vec3.norm (v : Vec3) : ℝ :=
  Real.sqrt (v.x ^ 2 + v.y ^ 2 + v.z ^ 2)

/-- `Vector.normalized()` / `Vector.normalize()`: scale to unit length;
a zero-length vector is left unchanged (it is the zero vector). -/
noncomputable def Vec3.normalized (v : Vec3) : Vec3 :=
  if v.norm = 0 then v else (v.norm)⁻¹ • v

/-- A bmesh face as seen by this addon: stable index, selection flag,
derived unit face normal, and the area returned by `f.calc_area()`. -/
structure BMFace where
  index : Nat
  select : Bool
  normal : Vec3
  calc_area : ℝ

/-- A bmesh edge: selection flag and the faces incident to it. -/
structure BMEdge where
  select : Bool
  link_faces : List BMFace

/-- A bmesh vertex: stable index, selection flag, incident faces and edges. -/
structure BMVert where
  index : Nat
  select : Bool
  link_faces : List BMFace
  link_edges : List BMEdge

/-- A mesh polygon (`me.polygons[i]`): contiguous loop range
`[loop_start, loop_start + loop_total)`, selection flag, face normal. -/
structure BPoly where
  loop_start : Nat
  loop_total : Nat
  select : Bool
  normal : Vec3

/-- A mesh loop (`me.loops[i]`): its own index, the referenced vertex index,
and the split normal produced by `calc_normals_split()`. -/
structure MLoop where
  index : Nat
  vertex_index : Nat
  normal : Vec3

/-- Result dictionary of the aggregation functions:
`{'vertex_indices': ..., 'vertex_normals': ...}`. -/
structure VNResult where
  vertex_indices : List Nat
  vertex_normals : List Vec3

/-- Python slice read `xs[s : s + t]` (clamped at the end of the list). -/
def sliceL (xs : List Vec3) (s t : Nat) : List Vec3 :=
  (xs.drop s).take t

/-- Python slice assignment `xs[s : s + len(seg)] = seg` (clamped like
Python: positions past the end of `xs` are appended). -/
def writeSlice (xs : List Vec3) (s : Nat) (seg : List Vec3) : List Vec3 :=
  xs.take s ++ seg ++ xs.drop (s + seg.length)

/-- `get_linked_faces(vertex, smooth_mode, ignore_selection)`: faces linked
to a vertex under the selection-mode tag.  The `edge` branch accumulates
with `ls_faces.extend(e.link_faces)`, exactly as the source does. -/
def get_linked_faces (vertex : BMVert) (smooth_mode : String)
    (ignore_selection : Bool := false) : List BMFace :=
  if smooth_mode = "face" then
    vertex.link_faces.filter (fun f => f.select || ignore_selection)
  else if smooth_mode = "edge" then
    let ls_edges := vertex.link_edges.filter (fun e => e.select || ignore_selection)
    ls_edges.foldl (fun ls_faces e => ls_faces ++ e.link_faces) []
  else
    vertex.link_faces

/-- `get_smoothed_vertex_normals(mesh_data, smooth_mode)`: per selected
vertex with a non-empty linked-face set, append the vertex index and the
normalized sum of the linked faces' normals. -/
noncomputable def get_smoothed_vertex_normals (bm_verts : List BMVert)
    (smooth_mode : String := "face") : VNResult :=
  let selected_verts := bm_verts.filter (fun v => v.select)
  selected_verts.foldl (fun acc v =>
    let ls_faces := get_linked_faces v smooth_mode
    if 0 < ls_faces.length then
      let vertex_normal := ls_faces.foldl (fun n f => n + f.normal) (0 : Vec3)
      { vertex_indices := acc.vertex_indices ++ [v.index],
        vertex_normals := acc.vertex_normals ++ [vertex_normal.normalized] }
    else acc) ⟨[], []⟩

/-- `get_face_weighted_normals(mesh_data, smooth_mode)`: as above but each
face normal is scaled by the face's area, and in `all` mode every vertex is
processed with all of its linked faces. -/
noncomputable def get_face_weighted_normals (bm_verts : List BMVert)
    (smooth_mode : String := "face") : VNResult :=
  let smooth_all := smooth_mode == "all"
  let selected_verts := if smooth_all then bm_verts else bm_verts.filter (fun v => v.select)
  selected_verts.foldl (fun acc v =>
    let ls_faces := if smooth_all then v.link_faces else get_linked_faces v smooth_mode
    if 0 < ls_faces.length then
      let vertex_normal := ls_faces.foldl (fun n f => n + f.normal * f.calc_area) (0 : Vec3)
      { vertex_indices := acc.vertex_indices ++ [v.index],
        vertex_normals := acc.vertex_normals ++ [vertex_normal.normalized] }
    else acc) ⟨[], []⟩

/-- `set_smooth_normals(mesh_data, vertex_indices, vertex_normals)`: build
`clnors` (initialised to zero vectors) by writing, for every loop, either
the override looked up by the loop's vertex index or the loop's recomputed
split normal.  `vertex_normals[idx]` raises `IndexError` in Python when the
two lists are mismatched; this is modelled by `Option`. -/
def set_smooth_normals (me_loops : List MLoop) (vertex_indices : List Nat)
    (vertex_normals : List Vec3) : Option (List Vec3) :=
  me_loops.foldlM (fun clnors loop =>
    let vertex_normal := loop.normal
    if loop.vertex_index ∈ vertex_indices then
      (vertex_normals[(List.indexOf loop.vertex_index vertex_indices)]?).map
        (fun n => clnors.set loop.index n)
    else
      some (clnors.set loop.index vertex_normal))
    (List.replicate me_loops.length (0 : Vec3))

/-- `flip_normals(mesh_data)` restricted to its loop-normal transform:
`clnors` is the snapshot `[Vector(loop.normal) for loop in me.loops]` taken
before the host's topology flip; for every selected polygon the loop range
is negated in place and then all but the first entry of the range are
reversed in place. -/
def flip_normals (me_polygons : List BPoly) (clnors : List Vec3) : List Vec3 :=
  me_polygons.foldl (fun acc p =>
    if p.select then
      let ls := p.loop_start
      let acc1 := writeSlice acc ls ((sliceL acc ls p.loop_total).map (fun n => -n))
      let ls2 := p.loop_start + 1
      writeSlice acc1 ls2 ((sliceL acc1 ls2 (p.loop_total - 1)).reverse)
    else acc) clnors

/-- `harden_normals(mesh_data)`: for every selected polygon, write the
polygon's face normal to its whole loop range. -/
def harden_normals (me_polygons : List BPoly) (clnors : List Vec3) : List Vec3 :=
  me_polygons.foldl (fun acc p =>
    if p.select then
      writeSlice acc p.loop_start (List.replicate p.loop_total p.normal)
    else acc) clnors

/-- `set_specific_normal_vector(mesh_data, normal)`: for every selected
polygon, write `normal` to its whole loop range.  The source computes
`n = normal.normalized()` but then writes the raw `normal`; the unused
`n` is reproduced here. -/
noncomputable def set_specific_normal_vector (me_polygons : List BPoly)
    (clnors : List Vec3) (normal : Vec3) : List Vec3 :=
  let n := normal.normalized
  me_polygons.foldl (fun acc p =>
    if p.select then
      writeSlice acc p.loop_start (List.replicate p.loop_total normal)
    else acc) clnors

/-- Core of `MaskedSoftenNormals.execute` (after the selection-mode tag has
been chosen): aggregate, then merge through `set_smooth_normals`. -/
noncomputable def masked_soften_op (bm_verts : List BMVert) (me_loops : List MLoop)
    (smooth_mode : String) : Option (List Vec3) :=
  let vn := get_smoothed_vertex_normals bm_verts smooth_mode
  set_smooth_normals me_loops vn.vertex_indices vn.vertex_normals

/-- Core of `FaceWeightedNormals.execute` (after the selection-mode tag has
been chosen): aggregate area-weighted, then merge. -/
noncomputable def face_weighted_op (bm_verts : List BMVert) (me_loops : List MLoop)
    (smooth_mode : String) : Option (List Vec3) :=
  let vn := get_face_weighted_normals bm_verts smooth_mode
  set_smooth_normals me_loops vn.vertex_indices vn.vertex_normals

/-- Core of `SetSpecificNormalVector.execute`: with polygon-level selection
granularity and `allow_split_normals` it takes the hard per-polygon path,
otherwise it falls back to a per-vertex override of `custom_normal` for
every selected vertex, merged through `set_smooth_normals`. -/
noncomputable def set_specific_execute (face_select_mode : Bool)
    (allow_split_normals : Bool) (bm_verts : List BMVert)
    (me_loops : List MLoop) (me_polygons : List BPoly)
    (custom_normal : Vec3) : Option (List Vec3) :=
  if face_select_mode && allow_split_normals then
    some (set_specific_normal_vector me_polygons (me_loops.map MLoop.normal) custom_normal)
  else
    let vertex_indices := (bm_verts.filter (fun v => v.select)).map (fun v => v.index)
    let vertex_normals := List.replicate vertex_indices.length custom_normal
    set_smooth_normals me_loops vertex_indices vertex_normals

/-- Position `i` lies in polygon `p`'s loop range. -/
def inRange (p : BPoly) (i : Nat) : Prop :=
  p.loop_start ≤ i ∧ i < p.loop_start + p.loop_total

instance (p : BPoly) (i : Nat) : Decidable (inRange p i) :=
  inferInstanceAs (Decidable (_ ∧ _))

/-- Two polygons occupy disjoint loop ranges. -/
def rangesDisjoint (p q : BPoly) : Prop :=
  p.loop_start + p.loop_total ≤ q.loop_start ∨
  q.loop_start + q.loop_total ≤ p.loop_start

instance (p q : BPoly) : Decidable (rangesDisjoint p q) :=
  inferInstanceAs (Decidable (_ ∨ _))

/-- All loop ranges of the polygon list fit inside an `n`-entry loop array
(the §3 data-model invariant). -/
def polysInBounds (ps : List BPoly) (n : Nat) : Prop :=
  ∀ p ∈ ps, p.loop_start + p.loop_total ≤ n

/-! ### Basic `Vec3` lemmas -/

theorem Vec3.ext_iff3 (a b : Vec3) : a = b ↔ a.x = b.x ∧ a.y = b.y ∧ a.z = b.z := by
  constructor
  · rintro rfl; exact ⟨rfl, rfl, rfl⟩
  · rcases a with ⟨ax, ay, az⟩
    rcases b with ⟨bx, by_, bz⟩
    rintro ⟨h1, h2, h3⟩
    simp_all

theorem Vec3.norm_nonneg (v : Vec3) : 0 ≤ v.norm :=
  Real.sqrt_nonneg _

theorem Vec3.eq_zero_of_norm_eq_zero {v : Vec3} (h : v.norm = 0) : v = 0 := by
  have hs : v.x ^ 2 + v.y ^ 2 + v.z ^ 2 = 0 := by
    have h0 : 0 ≤ v.x ^ 2 + v.y ^ 2 + v.z ^ 2 := by positivity
    exact (Real.sqrt_eq_zero h0).mp h
  have hx : v.x = 0 := by nlinarith [sq_nonneg v.x, sq_nonneg v.y, sq_nonneg v.z]
  have hy : v.y = 0 := by nlinarith [sq_nonneg v.x, sq_nonneg v.y, sq_nonneg v.z]
  have hz : v.z = 0 := by nlinarith [sq_nonneg v.x, sq_nonneg v.y, sq_nonneg v.z]
  rw [Vec3.ext_iff3]
  exact ⟨hx, hy, hz⟩

theorem Vec3.norm_smul (c : ℝ) (v : Vec3) : (c • v).norm = |c| * v.norm := by
  show Real.sqrt ((c * v.x) ^ 2 + (c * v.y) ^ 2 + (c * v.z) ^ 2) = _
  have h : (c * v.x) ^ 2 + (c * v.y) ^ 2 + (c * v.z) ^ 2
      = c ^ 2 * (v.x ^ 2 + v.y ^ 2 + v.z ^ 2) := by ring
  rw [h, Real.sqrt_mul (sq_nonneg c), Real.sqrt_sq_eq_abs]
  rfl

theorem Vec3.norm_neg (v : Vec3) : (-v).norm = v.norm := by
  show Real.sqrt ((-v.x) ^ 2 + (-v.y) ^ 2 + (-v.z) ^ 2) = _
  have h : (-v.x) ^ 2 + (-v.y) ^ 2 + (-v.z) ^ 2 = v.x ^ 2 + v.y ^ 2 + v.z ^ 2 := by ring
  rw [h]; rfl

theorem Vec3.norm_normalized (v : Vec3) (h : v.norm ≠ 0) : v.normalized.norm = 1 := by
  rw [Vec3.normalized, if_neg h, Vec3.norm_smul,
    abs_of_nonneg (inv_nonneg.mpr (Vec3.norm_nonneg v)), inv_mul_cancel₀ h]

theorem Vec3.norm_normalized_or (v : Vec3) :
    v.normalized.norm = 1 ∨ v.normalized = 0 := by
  by_cases h : v.norm = 0
  · right
    rw [Vec3.normalized, if_pos h]
    exact Vec3.eq_zero_of_norm_eq_zero h
  · left
    exact Vec3.norm_normalized v h

theorem Vec3.smul_assoc3 (a b : ℝ) (v : Vec3) : a • b • v = (a * b) • v := by
  show Vec3.mk (a * (b * v.x)) (a * (b * v.y)) (a * (b * v.z)) = ⟨a * b * v.x, a * b * v.y, a * b * v.z⟩
  rw [Vec3.ext_iff3]
  refine ⟨by ring, by ring, by ring⟩

theorem Vec3.normalized_smul_pos {c : ℝ} (hc : 0 < c) (v : Vec3) :
    (c • v).normalized = v.normalized := by
  have hnorm : (c • v).norm = c * v.norm := by
    rw [Vec3.norm_smul, abs_of_nonneg hc.le]
  by_cases h : v.norm = 0
  · have hv : v = 0 := Vec3.eq_zero_of_norm_eq_zero h
    subst hv
    have hc0 : (c • (0 : Vec3)) = 0 := by
      show Vec3.mk (c * 0) (c * 0) (c * 0) = ⟨0, 0, 0⟩
      norm_num
    rw [hc0]
  · have h' : (c • v).norm ≠ 0 := by
      rw [hnorm]
      exact mul_ne_zero (ne_of_gt hc) h
    have hcne : c ≠ 0 := ne_of_gt hc
    rw [Vec3.normalized, Vec3.normalized, if_neg h', if_neg h, Vec3.smul_assoc3]
    congr 1
    rw [hnorm, mul_inv]
    field_simp

/-! ### Slice lemmas

`writeSlice` and `sliceL` are characterised pointwise, which is how every
property of the polygon-range rewriting operators is proved. -/

theorem sliceL_getElem? (xs : List Vec3) (s t m : Nat) :
    (sliceL xs s t)[m]? = if m < t then xs[s + m]? else none := by
  rw [sliceL, List.getElem?_take]
  by_cases h : m < t
  · rw [if_pos h, if_pos h, List.getElem?_drop]
  · rw [if_neg h, if_neg h]

theorem sliceL_length (xs : List Vec3) (s t : Nat) (h : s + t ≤ xs.length) :
    (sliceL xs s t).length = t := by
  rw [sliceL, List.length_take, List.length_drop]
  omega

theorem writeSlice_length (xs : List Vec3) (s : Nat) (seg : List Vec3)
    (h : s + seg.length ≤ xs.length) :
    (writeSlice xs s seg).length = xs.length := by
  rw [writeSlice]
  simp only [List.length_append, List.length_take, List.length_drop]
  omega

theorem writeSlice_getElem? (xs : List Vec3) (s : Nat) (seg : List Vec3)
    (hs : s ≤ xs.length) (i : Nat) :
    (writeSlice xs s seg)[i]? =
      if s ≤ i ∧ i < s + seg.length then seg[i - s]? else xs[i]? := by
  rw [writeSlice]
  have hlt : (xs.take s).length = s := by
    rw [List.length_take]; omega
  have hlt2 : (xs.take s ++ seg).length = s + seg.length := by
    rw [List.length_append, hlt]
  by_cases h1 : i < s
  · rw [if_neg (by omega)]
    rw [List.getElem?_append_left (by rw [hlt2]; omega),
      List.getElem?_append_left (by rw [hlt]; exact h1),
      List.getElem?_take, if_pos h1]
  · by_cases h2 : i < s + seg.length
    · rw [if_pos ⟨by omega, h2⟩]
      rw [List.getElem?_append_left (by rw [hlt2]; omega),
        List.getElem?_append_right (by rw [hlt]; omega), hlt]
    · rw [if_neg (by omega)]
      rw [List.getElem?_append_right (by rw [hlt2]; omega), hlt2,
        List.getElem?_drop]
      congr 1
      omega

theorem writeSlice_nil (xs : List Vec3) (s : Nat) :
    writeSlice xs s [] = xs := by
  rw [writeSlice]
  simp [List.take_append_drop]

/-! ### The loop bodies of the polygon-range operators -/

/-- Loop body shared by `harden_normals` and `set_specific_normal_vector`:
overwrite a selected polygon's loop range with copies of one vector. -/
def maskedWriteStep (c : BPoly → Vec3) (acc : List Vec3) (p : BPoly) : List Vec3 :=
  if p.select then
    writeSlice acc p.loop_start (List.replicate p.loop_total (c p))
  else acc

/-- Loop body of `flip_normals`: negate the selected polygon's loop range,
then reverse all but the first entry of that range. -/
def flipStepFun (acc : List Vec3) (p : BPoly) : List Vec3 :=
  if p.select then
    let ls := p.loop_start
    let acc1 := writeSlice acc ls ((sliceL acc ls p.loop_total).map (fun n => -n))
    let ls2 := p.loop_start + 1
    writeSlice acc1 ls2 ((sliceL acc1 ls2 (p.loop_total - 1)).reverse)
  else acc

theorem harden_normals_eq_fold (ps : List BPoly) (x : List Vec3) :
    harden_normals ps x = ps.foldl (maskedWriteStep (fun p => p.normal)) x := rfl

theorem set_specific_eq_fold (ps : List BPoly) (x : List Vec3) (d : Vec3) :
    set_specific_normal_vector ps x d = ps.foldl (maskedWriteStep (fun _ => d)) x := rfl

theorem flip_normals_eq_fold (ps : List BPoly) (x : List Vec3) :
    flip_normals ps x = ps.foldl flipStepFun x := rfl

/-! ### Step-level lemmas -/

theorem maskedWriteStep_not_select (c : BPoly → Vec3) (acc : List Vec3) (p : BPoly)
    (h : p.select = false) : maskedWriteStep c acc p = acc := by
  rw [maskedWriteStep, h]
  simp

theorem maskedWriteStep_length (c : BPoly → Vec3) (acc : List Vec3) (p : BPoly)
    (hsel : p.select = true) (hb : p.loop_start + p.loop_total ≤ acc.length) :
    (maskedWriteStep c acc p).length = acc.length := by
  rw [maskedWriteStep, hsel, if_pos rfl]
  exact writeSlice_length _ _ _ (by rw [List.length_replicate]; exact hb)

theorem maskedWriteStep_outside (c : BPoly → Vec3) (acc : List Vec3) (p : BPoly) (i : Nat)
    (hsel : p.select = true) (hb : p.loop_start + p.loop_total ≤ acc.length)
    (hi : ¬ inRange p i) :
    (maskedWriteStep c acc p)[i]? = acc[i]? := by
  rw [maskedWriteStep, hsel, if_pos rfl,
    writeSlice_getElem? _ _ _ (by omega), List.length_replicate]
  rw [if_neg (by rw [inRange] at hi; omega)]

theorem maskedWriteStep_inside (c : BPoly → Vec3) (acc : List Vec3) (p : BPoly) (i : Nat)
    (hsel : p.select = true) (hb : p.loop_start + p.loop_total ≤ acc.length)
    (hi : inRange p i) :
    (maskedWriteStep c acc p)[i]? = some (c p) := by
  rw [inRange] at hi
  rw [maskedWriteStep, hsel, if_pos rfl,
    writeSlice_getElem? _ _ _ (by omega), List.length_replicate,
    if_pos (by omega), List.getElem?_replicate, if_pos (by omega)]

theorem flipStepFun_not_select (acc : List Vec3) (p : BPoly)
    (h : p.select = false) : flipStepFun acc p = acc := by
  rw [flipStepFun, h]
  simp

theorem flipStepFun_total_zero (acc : List Vec3) (p : BPoly)
    (h : p.loop_total = 0) : flipStepFun acc p = acc := by
  rw [flipStepFun]
  by_cases hsel : p.select = true
  · rw [hsel, if_pos rfl]
    simp only [h, sliceL, List.take_zero, List.map_nil, Nat.zero_sub,
      List.reverse_nil, writeSlice_nil]
  · rw [if_neg (by simpa using hsel)]

theorem flipStepFun_length (acc : List Vec3) (p : BPoly)
    (hb : p.loop_start + p.loop_total ≤ acc.length) :
    (flipStepFun acc p).length = acc.length := by
  by_cases hsel : p.select = true
  · rcases Nat.eq_zero_or_pos p.loop_total with h0 | h1
    · rw [flipStepFun_total_zero acc p h0]
    · rw [flipStepFun, hsel, if_pos rfl]
      have hseg1 : ((sliceL acc p.loop_start p.loop_total).map (fun n => -n)).length
          = p.loop_total := by
        rw [List.length_map, sliceL_length _ _ _ hb]
      have hacc1 : (writeSlice acc p.loop_start
          ((sliceL acc p.loop_start p.loop_total).map (fun n => -n))).length = acc.length := by
        exact writeSlice_length _ _ _ (by rw [hseg1]; exact hb)
      have hseg2 : ((sliceL (writeSlice acc p.loop_start
          ((sliceL acc p.loop_start p.loop_total).map (fun n => -n)))
          (p.loop_start + 1) (p.loop_total - 1)).reverse).length = p.loop_total - 1 := by
        rw [List.length_reverse, sliceL_length]
        rw [hacc1]; omega
      rw [writeSlice_length _ _ _ (by rw [hseg2, hacc1]; omega), hacc1]
  · rw [flipStepFun_not_select acc p (by simpa using hsel)]

theorem flipStepFun_outside (acc : List Vec3) (p : BPoly) (i : Nat)
    (hb : p.loop_start + p.loop_total ≤ acc.length)
    (hi : ¬ inRange p i) :
    (flipStepFun acc p)[i]? = acc[i]? := by
  rw [inRange] at hi
  by_cases hsel : p.select = true
  · rcases Nat.eq_zero_or_pos p.loop_total with h0 | h1
    · rw [flipStepFun_total_zero acc p h0]
    · rw [flipStepFun, hsel, if_pos rfl]
      have hseg1 : ((sliceL acc p.loop_start p.loop_total).map (fun n => -n)).length
          = p.loop_total := by
        rw [List.length_map, sliceL_length _ _ _ hb]
      have hacc1 : (writeSlice acc p.loop_start
          ((sliceL acc p.loop_start p.loop_total).map (fun n => -n))).length = acc.length := by
        exact writeSlice_length _ _ _ (by rw [hseg1]; exact hb)
      have hseg2 : ((sliceL (writeSlice acc p.loop_start
          ((sliceL acc p.loop_start p.loop_total).map (fun n => -n)))
          (p.loop_start + 1) (p.loop_total - 1)).reverse).length = p.loop_total - 1 := by
        rw [List.length_reverse, sliceL_length]
        rw [hacc1]; omega
      rw [writeSlice_getElem? _ _ _ (by rw [hacc1]; omega), hseg2,
        if_neg (by omega),
        writeSlice_getElem? _ _ _ (by omega), hseg1,
        if_neg (by omega)]
  · rw [flipStepFun_not_select acc p (by simpa using hsel)]

theorem flipStepFun_inside (acc : List Vec3) (p : BPoly) (i : Nat)
    (hsel : p.select = true)
    (hb : p.loop_start + p.loop_total ≤ acc.length)
    (hi : inRange p i) :
    (flipStepFun acc p)[i]? =
      if i = p.loop_start then (acc[p.loop_start]?).map (fun n => -n)
      else (acc[p.loop_start + p.loop_total - (i - p.loop_start)]?).map (fun n => -n) := by
  rw [inRange] at hi
  have h1 : 0 < p.loop_total := by omega
  rw [flipStepFun, hsel, if_pos rfl]
  have hseg1 : ((sliceL acc p.loop_start p.loop_total).map (fun n => -n)).length
      = p.loop_total := by
    rw [List.length_map, sliceL_length _ _ _ hb]
  have hacc1len : (writeSlice acc p.loop_start
      ((sliceL acc p.loop_start p.loop_total).map (fun n => -n))).length = acc.length := by
    exact writeSlice_length _ _ _ (by rw [hseg1]; exact hb)
  have hacc1get : ∀ j, (writeSlice acc p.loop_start
      ((sliceL acc p.loop_start p.loop_total).map (fun n => -n)))[j]? =
      if p.loop_start ≤ j ∧ j < p.loop_start + p.loop_total
      then (acc[j]?).map (fun n => -n) else acc[j]? := by
    intro j
    rw [writeSlice_getElem? _ _ _ (by omega), hseg1]
    by_cases hj : p.loop_start ≤ j ∧ j < p.loop_start + p.loop_total
    · rw [if_pos hj, if_pos hj, List.getElem?_map, sliceL_getElem?,
        if_pos (by omega)]
      have hje : p.loop_start + (j - p.loop_start) = j := by omega
      rw [hje]
    · rw [if_neg hj, if_neg hj]
  have hslice2len : (sliceL (writeSlice acc p.loop_start
      ((sliceL acc p.loop_start p.loop_total).map (fun n => -n)))
      (p.loop_start + 1) (p.loop_total - 1)).length = p.loop_total - 1 := by
    rw [sliceL_length]
    rw [hacc1len]; omega
  have hseg2get : ∀ k, k < p.loop_total - 1 →
      ((sliceL (writeSlice acc p.loop_start
        ((sliceL acc p.loop_start p.loop_total).map (fun n => -n)))
        (p.loop_start + 1) (p.loop_total - 1)).reverse)[k]? =
      (acc[p.loop_start + p.loop_total - 1 - k]?).map (fun n => -n) := by
    intro k hk
    rw [List.getElem?_reverse (by rw [hslice2len]; exact hk), hslice2len,
      sliceL_getElem?, if_pos (by omega), hacc1get]
    rw [if_pos (by omega)]
    have hke : p.loop_start + 1 + (p.loop_total - 1 - 1 - k)
        = p.loop_start + p.loop_total - 1 - k := by omega
    rw [hke]
  rw [writeSlice_getElem? _ _ _ (by rw [hacc1len]; omega),
    List.length_reverse, hslice2len]
  by_cases hfirst : i = p.loop_start
  · rw [if_neg (by omega), if_pos hfirst, hacc1get, if_pos (by omega), hfirst]
  · rw [if_pos (by omega), if_neg hfirst, hseg2get _ (by omega)]
    have hie : p.loop_start + p.loop_total - 1 - (i - (p.loop_start + 1))
        = p.loop_start + p.loop_total - (i - p.loop_start) := by omega
    rw [hie]

/-! ### Generic lemmas about selection-masked polygon folds -/

theorem maskedFold_length (f : List Vec3 → BPoly → List Vec3)
    (hns : ∀ acc p, p.select = false → f acc p = acc)
    (hlen : ∀ acc p, p.select = true → p.loop_start + p.loop_total ≤ acc.length →
      (f acc p).length = acc.length) :
    ∀ (ps : List BPoly) (x : List Vec3), polysInBounds ps x.length →
      (ps.foldl f x).length = x.length := by
  intro ps
  induction ps with
  | nil => intro x _; rfl
  | cons p ps ih =>
    intro x hb
    rw [List.foldl_cons]
    have hx : (f x p).length = x.length := by
      by_cases hsel : p.select = true
      · exact hlen x p hsel (hb p (List.mem_cons_self p ps))
      · rw [hns x p (by simpa using hsel)]
    have hb' : polysInBounds ps (f x p).length := by
      rw [hx]
      intro q hq
      exact hb q (List.mem_cons_of_mem p hq)
    rw [ih (f x p) hb', hx]

theorem maskedFold_outside (f : List Vec3 → BPoly → List Vec3)
    (hns : ∀ acc p, p.select = false → f acc p = acc)
    (hlen : ∀ acc p, p.select = true → p.loop_start + p.loop_total ≤ acc.length →
      (f acc p).length = acc.length)
    (hout : ∀ acc p i, p.select = true → p.loop_start + p.loop_total ≤ acc.length →
      ¬ inRange p i → (f acc p)[i]? = acc[i]?) :
    ∀ (ps : List BPoly) (x : List Vec3) (i : Nat), polysInBounds ps x.length →
      (∀ p ∈ ps, p.select = true → ¬ inRange p i) →
      (ps.foldl f x)[i]? = x[i]? := by
  intro ps
  induction ps with
  | nil => intro x i _ _; rfl
  | cons p ps ih =>
    intro x i hb hmask
    rw [List.foldl_cons]
    have hx : (f x p).length = x.length := by
      by_cases hsel : p.select = true
      · exact hlen x p hsel (hb p (List.mem_cons_self p ps))
      · rw [hns x p (by simpa using hsel)]
    have hb' : polysInBounds ps (f x p).length := by
      rw [hx]
      intro q hq
      exact hb q (List.mem_cons_of_mem p hq)
    have hstep : (f x p)[i]? = x[i]? := by
      by_cases hsel : p.select = true
      · exact hout x p i hsel (hb p (List.mem_cons_self p ps))
          (hmask p (List.mem_cons_self p ps) hsel)
      · rw [hns x p (by simpa using hsel)]
    rw [ih (f x p) i hb' (fun q hq => hmask q (List.mem_cons_of_mem p hq)), hstep]

theorem maskedFold_inside (f : List Vec3 → BPoly → List Vec3)
    (hns : ∀ acc p, p.select = false → f acc p = acc)
    (hlen : ∀ acc p, p.select = true → p.loop_start + p.loop_total ≤ acc.length →
      (f acc p).length = acc.length)
    (hout : ∀ acc p i, p.select = true → p.loop_start + p.loop_total ≤ acc.length →
      ¬ inRange p i → (f acc p)[i]? = acc[i]?)
    (hread : ∀ acc acc' p i, acc.length = acc'.length →
      (∀ j, inRange p j → acc[j]? = acc'[j]?) → p.select = true →
      p.loop_start + p.loop_total ≤ acc.length → inRange p i →
      (f acc p)[i]? = (f acc' p)[i]?)
    (ps : List BPoly) (x : List Vec3) (p : BPoly) (i : Nat)
    (hb : polysInBounds ps x.length)
    (hdisj : List.Pairwise rangesDisjoint ps)
    (hp : p ∈ ps) (hsel : p.select = true) (hi : inRange p i) :
    (ps.foldl f x)[i]? = (f x p)[i]? := by
  obtain ⟨l1, l2, rfl⟩ := List.append_of_mem hp
  rw [List.pairwise_append] at hdisj
  obtain ⟨hd1, hd2, hcross⟩ := hdisj
  rw [List.pairwise_cons] at hd2
  obtain ⟨hpl2, _⟩ := hd2
  have hb1 : polysInBounds l1 x.length := by
    intro q hq
    exact hb q (by rw [List.mem_append]; exact Or.inl hq)
  have hbp : p.loop_start + p.loop_total ≤ x.length :=
    hb p (by rw [List.mem_append]; exact Or.inr (List.mem_cons_self p l2))
  have hbl2 : ∀ q ∈ l2, q.loop_start + q.loop_total ≤ x.length := by
    intro q hq
    exact hb q (by rw [List.mem_append]; exact Or.inr (List.mem_cons_of_mem p hq))
  rw [List.foldl_append, List.foldl_cons]
  have hylen : (l1.foldl f x).length = x.length :=
    maskedFold_length f hns hlen l1 x hb1
  have hyx : ∀ j, inRange p j → (l1.foldl f x)[j]? = x[j]? := by
    intro j hj
    refine maskedFold_outside f hns hlen hout l1 x j hb1 ?_
    intro q hq hqsel
    have hqp : rangesDisjoint q p := hcross q hq p (List.mem_cons_self p l2)
    rw [inRange] at hj ⊢
    rw [rangesDisjoint] at hqp
    omega
  have hstep : (f (l1.foldl f x) p)[i]? = (f x p)[i]? :=
    hread (l1.foldl f x) x p i hylen hyx hsel (by rw [hylen]; exact hbp) hi
  have hzlen : (f (l1.foldl f x) p).length = x.length := by
    rw [hlen (l1.foldl f x) p hsel (by rw [hylen]; exact hbp), hylen]
  have houter : (l2.foldl f (f (l1.foldl f x) p))[i]? = (f (l1.foldl f x) p)[i]? := by
    refine maskedFold_outside f hns hlen hout l2 (f (l1.foldl f x) p) i ?_ ?_
    · intro q hq
      rw [hzlen]
      exact hbl2 q hq
    · intro q hq hqsel
      have hpq : rangesDisjoint p q := hpl2 q hq
      rw [inRange] at hi ⊢
      rw [rangesDisjoint] at hpq
      omega
  rw [houter, hstep]

/-! ### Operator-level range lemmas -/

theorem rangesDisjoint_symm : Symmetric rangesDisjoint := by
  intro p q h
  rw [rangesDisjoint] at h ⊢
  omega

theorem maskedWrite_fold_length (c : BPoly → Vec3) (ps : List BPoly) (x : List Vec3)
    (hb : polysInBounds ps x.length) :
    (ps.foldl (maskedWriteStep c) x).length = x.length :=
  maskedFold_length _ (fun acc p h => maskedWriteStep_not_select c acc p h)
    (fun acc p h hbb => maskedWriteStep_length c acc p h hbb) ps x hb

theorem maskedWrite_fold_outside (c : BPoly → Vec3) (ps : List BPoly) (x : List Vec3)
    (i : Nat) (hb : polysInBounds ps x.length)
    (hmask : ∀ p ∈ ps, p.select = true → ¬ inRange p i) :
    (ps.foldl (maskedWriteStep c) x)[i]? = x[i]? :=
  maskedFold_outside _ (fun acc p h => maskedWriteStep_not_select c acc p h)
    (fun acc p h hbb => maskedWriteStep_length c acc p h hbb)
    (fun acc p j h hbb hj => maskedWriteStep_outside c acc p j h hbb hj) ps x i hb hmask

theorem maskedWrite_fold_inside (c : BPoly → Vec3) (ps : List BPoly) (x : List Vec3)
    (p : BPoly) (i : Nat) (hb : polysInBounds ps x.length)
    (hdisj : List.Pairwise rangesDisjoint ps)
    (hp : p ∈ ps) (hsel : p.select = true) (hi : inRange p i) :
    (ps.foldl (maskedWriteStep c) x)[i]? = some (c p) := by
  have h := maskedFold_inside (maskedWriteStep c)
    (fun acc q h => maskedWriteStep_not_select c acc q h)
    (fun acc q h hbb => maskedWriteStep_length c acc q h hbb)
    (fun acc q j h hbb hj => maskedWriteStep_outside c acc q j h hbb hj)
    (fun acc acc' q j hl _ hqs hbb hj => by
      rw [maskedWriteStep_inside c acc q j hqs hbb hj,
        maskedWriteStep_inside c acc' q j hqs (by rw [hl] at hbb; exact hbb) hj])
    ps x p i hb hdisj hp hsel hi
  rw [h, maskedWriteStep_inside c x p i hsel (hb p hp) hi]

theorem flip_fold_length (ps : List BPoly) (x : List Vec3)
    (hb : polysInBounds ps x.length) :
    (ps.foldl flipStepFun x).length = x.length :=
  maskedFold_length _ (fun acc p h => flipStepFun_not_select acc p h)
    (fun acc p _ hbb => flipStepFun_length acc p hbb) ps x hb

theorem flip_fold_outside (ps : List BPoly) (x : List Vec3)
    (i : Nat) (hb : polysInBounds ps x.length)
    (hmask : ∀ p ∈ ps, p.select = true → ¬ inRange p i) :
    (ps.foldl flipStepFun x)[i]? = x[i]? :=
  maskedFold_outside _ (fun acc p h => flipStepFun_not_select acc p h)
    (fun acc p _ hbb => flipStepFun_length acc p hbb)
    (fun acc p j _ hbb hj => flipStepFun_outside acc p j hbb hj) ps x i hb hmask

theorem flip_fold_inside (ps : List BPoly) (x : List Vec3)
    (p : BPoly) (i : Nat) (hb : polysInBounds ps x.length)
    (hdisj : List.Pairwise rangesDisjoint ps)
    (hp : p ∈ ps) (hsel : p.select = true) (hi : inRange p i) :
    (ps.foldl flipStepFun x)[i]? =
      if i = p.loop_start then (x[p.loop_start]?).map (fun n => -n)
      else (x[p.loop_start + p.loop_total - (i - p.loop_start)]?).map (fun n => -n) := by
  have hread : ∀ (acc acc' : List Vec3) (q : BPoly) (j : Nat), acc.length = acc'.length →
      (∀ m, inRange q m → acc[m]? = acc'[m]?) → q.select = true →
      q.loop_start + q.loop_total ≤ acc.length → inRange q j →
      (flipStepFun acc q)[j]? = (flipStepFun acc' q)[j]? := by
    intro acc acc' q j hl hagree hqs hbb hj
    rw [flipStepFun_inside acc q j hqs hbb hj,
      flipStepFun_inside acc' q j hqs (by rw [hl] at hbb; exact hbb) hj]
    have hr : inRange q j := hj
    rw [inRange] at hr
    by_cases hfirst : j = q.loop_start
    · rw [if_pos hfirst, if_pos hfirst,
        hagree q.loop_start (by rw [inRange]; omega)]
    · rw [if_neg hfirst, if_neg hfirst,
        hagree (q.loop_start + q.loop_total - (j - q.loop_start)) (by rw [inRange]; omega)]
  have h := maskedFold_inside flipStepFun
    (fun acc q h => flipStepFun_not_select acc q h)
    (fun acc q _ hbb => flipStepFun_length acc q hbb)
    (fun acc q j _ hbb hj => flipStepFun_outside acc q j hbb hj)
    hread ps x p i hb hdisj hp hsel hi
  rw [h, flipStepFun_inside x p i hsel (hb p hp) hi]

/-! ### Characterisation of the Normal Writer merge -/

/-- Value the merge writes for one loop: the override looked up by the
loop's vertex index (first occurrence, as `list.index` does), or the loop's
own recomputed split normal. -/
def mergeVal (vertex_indices : List Nat) (vertex_normals : List Vec3)
    (loop : MLoop) : Vec3 :=
  if loop.vertex_index ∈ vertex_indices then
    vertex_normals.getD (List.indexOf loop.vertex_index vertex_indices) 0
  else loop.normal

theorem set_smooth_step_eq (vis : List Nat) (vns : List Vec3)
    (hlen : vis.length ≤ vns.length) (clnors : List Vec3) (loop : MLoop) :
    (if loop.vertex_index ∈ vis then
      (vns[(List.indexOf loop.vertex_index vis)]?).map
        (fun n => clnors.set loop.index n)
    else
      some (clnors.set loop.index loop.normal)) =
    some (clnors.set loop.index (mergeVal vis vns loop)) := by
  by_cases hmem : loop.vertex_index ∈ vis
  · rw [if_pos hmem, mergeVal, if_pos hmem]
    have hidx : List.indexOf loop.vertex_index vis < vns.length :=
      lt_of_lt_of_le (List.indexOf_lt_length.mpr hmem) hlen
    rw [List.getElem?_eq_getElem hidx]
    have hD : vns.getD (List.indexOf loop.vertex_index vis) 0
        = vns[(List.indexOf loop.vertex_index vis)] := by
      rw [List.getD_eq_getElem?_getD, List.getElem?_eq_getElem hidx]
      rfl
    rw [hD]
    rfl
  · rw [if_neg hmem, mergeVal, if_neg hmem]

theorem set_smooth_foldlM_aux (vis : List Nat) (vns : List Vec3)
    (hlen : vis.length ≤ vns.length) :
    ∀ (loops : List MLoop) (k : Nat) (acc : List Vec3),
      (∀ i (h : i < loops.length), (loops.get ⟨i, h⟩).index = k + i) →
      k + loops.length ≤ acc.length →
      List.foldlM (fun clnors loop =>
        let vertex_normal := loop.normal
        if loop.vertex_index ∈ vis then
          (vns[(List.indexOf loop.vertex_index vis)]?).map
            (fun n => clnors.set loop.index n)
        else
          some (clnors.set loop.index vertex_normal)) acc loops =
      some (acc.take k ++ loops.map (mergeVal vis vns) ++ acc.drop (k + loops.length)) := by
  intro loops
  induction loops with
  | nil =>
    intro k acc _ _
    simp only [List.foldlM_nil, List.map_nil, List.append_nil, List.length_nil,
      Nat.add_zero, List.take_append_drop]
    rfl
  | cons l ls ih =>
    intro k acc hidx hb
    have hlk : l.index = k := by
      have := hidx 0 (by simp)
      simpa using this
    have hklen : k < acc.length := by
      simp only [List.length_cons] at hb
      omega
    rw [List.foldlM_cons]
    have hstep := set_smooth_step_eq vis vns hlen acc l
    simp only at hstep
    rw [hstep, hlk]
    show List.foldlM _ (acc.set k (mergeVal vis vns l)) ls = _
    have hacc' : acc.set k (mergeVal vis vns l)
        = acc.take k ++ mergeVal vis vns l :: acc.drop (k + 1) := by
      rw [List.set_eq_take_append_cons_drop, if_pos hklen]
    have hidx' : ∀ i (h : i < ls.length), (ls.get ⟨i, h⟩).index = (k + 1) + i := by
      intro i h
      have := hidx (i + 1) (by simp; omega)
      simp only [List.get_cons_succ] at this
      rw [this]
      omega
    have hb' : (k + 1) + ls.length ≤ (acc.set k (mergeVal vis vns l)).length := by
      rw [List.length_set]
      simp only [List.length_cons] at hb
      omega
    rw [ih (k + 1) _ hidx' hb']
    congr 1
    have htk : (acc.take k).length = k := by
      rw [List.length_take]
      omega
    rw [hacc']
    have h1 : (acc.take k ++ mergeVal vis vns l :: acc.drop (k + 1)).take (k + 1)
        = acc.take k ++ [mergeVal vis vns l] := by
      have : k + 1 = (acc.take k).length + 1 := by rw [htk]
      rw [this, List.take_append]
      rfl
    have h2 : (acc.take k ++ mergeVal vis vns l :: acc.drop (k + 1)).drop (k + 1 + ls.length)
        = acc.drop (k + (l :: ls).length) := by
      have : k + 1 + ls.length = (acc.take k).length + (ls.length + 1) := by
        rw [htk]; omega
      rw [this, List.drop_append, List.drop_succ_cons, List.drop_drop]
      congr 1
      simp only [List.length_cons]
      omega
    rw [h1, h2, List.map_cons]
    simp only [List.append_assoc, List.cons_append, List.singleton_append,
      List.nil_append]

theorem set_smooth_normals_eq_map (loops : List MLoop) (vis : List Nat)
    (vns : List Vec3)
    (hidx : ∀ i (h : i < loops.length), (loops.get ⟨i, h⟩).index = i)
    (hlen : vis.length ≤ vns.length) :
    set_smooth_normals loops vis vns = some (loops.map (mergeVal vis vns)) := by
  rw [set_smooth_normals]
  have h := set_smooth_foldlM_aux vis vns hlen loops 0
    (List.replicate loops.length (0 : Vec3))
    (by intro i hh; simpa using hidx i hh)
    (by rw [List.length_replicate]; omega)
  rw [h]
  congr 1
  rw [List.take_zero, List.nil_append, Nat.zero_add]
  have : (List.replicate loops.length (0 : Vec3)).drop loops.length = [] := by
    rw [List.drop_eq_nil_iff]
    rw [List.length_replicate]
  rw [this, List.append_nil]

/-! ### Characterisation of the aggregation functions -/

/-- The running sum `vertex_normal = Vector(); for f in ls_faces: vertex_normal += f.normal`. -/
def sumFaceNormals (fs : List BMFace) : Vec3 :=
  fs.foldl (fun n f => n + f.normal) (0 : Vec3)

/-- The running sum with area weighting: `vertex_normal += f.normal * f.calc_area()`. -/
def sumWeightedNormals (fs : List BMFace) : Vec3 :=
  fs.foldl (fun n f => n + f.normal * f.calc_area) (0 : Vec3)

theorem vnfold_eq_filterMap (step : VNResult → BMVert → VNResult)
    (c : BMVert → Bool) (val : BMVert → Vec3)
    (hstep : ∀ acc v, step acc v =
      if c v = true then
        ⟨acc.vertex_indices ++ [v.index], acc.vertex_normals ++ [val v]⟩
      else acc) :
    ∀ (l : List BMVert) (acc : VNResult),
      l.foldl step acc =
        ⟨acc.vertex_indices ++ (l.filter c).map (fun v => v.index),
         acc.vertex_normals ++ (l.filter c).map val⟩ := by
  intro l
  induction l with
  | nil =>
    intro acc
    simp only [List.foldl_nil, List.filter_nil, List.map_nil, List.append_nil]
  | cons v vs ih =>
    intro acc
    rw [List.foldl_cons, hstep, List.filter_cons]
    by_cases hc : c v = true
    · rw [if_pos hc, if_pos hc, ih]
      simp only [List.map_cons, List.cons_append, List.append_assoc,
        List.singleton_append, List.nil_append]
    · rw [if_neg hc, if_neg hc, ih]

/-- The selected vertices that actually contribute an override in
`get_smoothed_vertex_normals`: selected, with a non-empty linked-face set. -/
def contributingVerts (bm_verts : List BMVert) (smooth_mode : String) : List BMVert :=
  (bm_verts.filter (fun v => v.select)).filter
    (fun v => decide (0 < (get_linked_faces v smooth_mode).length))

theorem get_smoothed_vertex_normals_eq (bm_verts : List BMVert) (smooth_mode : String) :
    get_smoothed_vertex_normals bm_verts smooth_mode =
      { vertex_indices := (contributingVerts bm_verts smooth_mode).map (fun v => v.index),
        vertex_normals := (contributingVerts bm_verts smooth_mode).map
          (fun v => (sumFaceNormals (get_linked_faces v smooth_mode)).normalized) } := by
  rw [get_smoothed_vertex_normals, contributingVerts]
  have h := vnfold_eq_filterMap
    (fun acc v =>
      let ls_faces := get_linked_faces v smooth_mode
      if 0 < ls_faces.length then
        let vertex_normal := ls_faces.foldl (fun n f => n + f.normal) (0 : Vec3)
        { vertex_indices := acc.vertex_indices ++ [v.index],
          vertex_normals := acc.vertex_normals ++ [vertex_normal.normalized] }
      else acc)
    (fun v => decide (0 < (get_linked_faces v smooth_mode).length))
    (fun v => (sumFaceNormals (get_linked_faces v smooth_mode)).normalized)
    (by
      intro acc v
      dsimp only
      by_cases hc : 0 < (get_linked_faces v smooth_mode).length
      · rw [if_pos hc, if_pos (by rw [decide_eq_true_eq]; exact hc)]
        rfl
      · rw [if_neg hc, if_neg (by rw [decide_eq_true_eq]; exact hc)])
    (bm_verts.filter (fun v => v.select)) ⟨[], []⟩
  rw [h]
  simp only [List.nil_append]

/-- The vertices that contribute an override in `get_face_weighted_normals`
when the mode is not `all`. -/
def contributingVertsW (bm_verts : List BMVert) (smooth_mode : String) : List BMVert :=
  (bm_verts.filter (fun v => v.select)).filter
    (fun v => decide (0 < (get_linked_faces v smooth_mode).length))


theorem get_face_weighted_normals_eq_masked (bm_verts : List BMVert)
    (smooth_mode : String) (hmode : smooth_mode ≠ "all") :
    get_face_weighted_normals bm_verts smooth_mode =
      { vertex_indices := (contributingVertsW bm_verts smooth_mode).map (fun v => v.index),
        vertex_normals := (contributingVertsW bm_verts smooth_mode).map
          (fun v => (sumWeightedNormals (get_linked_faces v smooth_mode)).normalized) } := by
  have hall : (smooth_mode == "all") = false := beq_eq_false_iff_ne.mpr hmode
  have hunfold : get_face_weighted_normals bm_verts smooth_mode =
      (bm_verts.filter (fun v => v.select)).foldl (fun acc v =>
        let ls_faces := get_linked_faces v smooth_mode
        if 0 < ls_faces.length then
          let vertex_normal := ls_faces.foldl (fun n f => n + f.normal * f.calc_area) (0 : Vec3)
          { vertex_indices := acc.vertex_indices ++ [v.index],
            vertex_normals := acc.vertex_normals ++ [vertex_normal.normalized] }
        else acc) ⟨[], []⟩ := by
    rw [get_face_weighted_normals]
    simp only [hall, Bool.false_eq_true, if_false]
  rw [hunfold, contributingVertsW]
  have h := vnfold_eq_filterMap
    (fun acc v =>
      let ls_faces := get_linked_faces v smooth_mode
      if 0 < ls_faces.length then
        let vertex_normal := ls_faces.foldl (fun n f => n + f.normal * f.calc_area) (0 : Vec3)
        { vertex_indices := acc.vertex_indices ++ [v.index],
          vertex_normals := acc.vertex_normals ++ [vertex_normal.normalized] }
      else acc)
    (fun v => decide (0 < (get_linked_faces v smooth_mode).length))
    (fun v => (sumWeightedNormals (get_linked_faces v smooth_mode)).normalized)
    (by
      intro acc v
      dsimp only
      by_cases hc : 0 < (get_linked_faces v smooth_mode).length
      · rw [if_pos hc, if_pos (by rw [decide_eq_true_eq]; exact hc)]
        rfl
      · rw [if_neg hc, if_neg (by rw [decide_eq_true_eq]; exact hc)])
    (bm_verts.filter (fun v => v.select)) ⟨[], []⟩
  rw [h]
  simp only [List.nil_append]

theorem get_face_weighted_normals_eq_all (bm_verts : List BMVert) :
    get_face_weighted_normals bm_verts "all" =
      { vertex_indices := (bm_verts.filter
          (fun v => decide (0 < v.link_faces.length))).map (fun v => v.index),
        vertex_normals := (bm_verts.filter
          (fun v => decide (0 < v.link_faces.length))).map
          (fun v => (sumWeightedNormals v.link_faces).normalized) } := by
  have hall : (("all" : String) == "all") = true := by rfl
  have hunfold : get_face_weighted_normals bm_verts "all" =
      bm_verts.foldl (fun acc v =>
        let ls_faces := v.link_faces
        if 0 < ls_faces.length then
          let vertex_normal := ls_faces.foldl (fun n f => n + f.normal * f.calc_area) (0 : Vec3)
          { vertex_indices := acc.vertex_indices ++ [v.index],
            vertex_normals := acc.vertex_normals ++ [vertex_normal.normalized] }
        else acc) ⟨[], []⟩ := by
    rw [get_face_weighted_normals]
    simp only [hall, if_true]
  rw [hunfold]
  have h := vnfold_eq_filterMap
    (fun acc v =>
      let ls_faces := v.link_faces
      if 0 < ls_faces.length then
        let vertex_normal := ls_faces.foldl (fun n f => n + f.normal * f.calc_area) (0 : Vec3)
        { vertex_indices := acc.vertex_indices ++ [v.index],
          vertex_normals := acc.vertex_normals ++ [vertex_normal.normalized] }
      else acc)
    (fun v => decide (0 < v.link_faces.length))
    (fun v => (sumWeightedNormals v.link_faces).normalized)
    (by
      intro acc v
      dsimp only
      by_cases hc : 0 < v.link_faces.length
      · rw [if_pos hc, if_pos (by rw [decide_eq_true_eq]; exact hc)]
        rfl
      · rw [if_neg hc, if_neg (by rw [decide_eq_true_eq]; exact hc)])
    bm_verts ⟨[], []⟩
  rw [h]
  simp only [List.nil_append]

/-! ### Small derived facts -/

theorem Vec3.neg_neg3 (v : Vec3) : -(-v) = v := by
  show Vec3.mk (-(-v.x)) (-(-v.y)) (-(-v.z)) = v
  rw [Vec3.ext_iff3]
  refine ⟨by ring, by ring, by ring⟩

theorem contributingVerts_sublist (bm_verts : List BMVert) (smooth_mode : String) :
    (contributingVerts bm_verts smooth_mode).Sublist bm_verts :=
  (List.filter_sublist _).trans (List.filter_sublist _)

theorem contributingVerts_mem (bm_verts : List BMVert) (smooth_mode : String)
    (v : BMVert) (hv : v ∈ contributingVerts bm_verts smooth_mode) :
    v ∈ bm_verts ∧ v.select = true ∧ 0 < (get_linked_faces v smooth_mode).length := by
  rw [contributingVerts] at hv
  rw [List.mem_filter] at hv
  obtain ⟨hv1, hv2⟩ := hv
  rw [List.mem_filter] at hv1
  exact ⟨hv1.1, hv1.2, by rw [decide_eq_true_eq] at hv2; exact hv2⟩

theorem smoothed_indices_selected (bm_verts : List BMVert) (smooth_mode : String)
    (vi : Nat)
    (hvi : vi ∈ (get_smoothed_vertex_normals bm_verts smooth_mode).vertex_indices) :
    ∃ v ∈ bm_verts, v.select = true ∧ v.index = vi := by
  rw [get_smoothed_vertex_normals_eq] at hvi
  simp only [List.mem_map] at hvi
  obtain ⟨v, hv, hidx⟩ := hvi
  obtain ⟨h1, h2, _⟩ := contributingVerts_mem bm_verts smooth_mode v hv
  exact ⟨v, h1, h2, hidx⟩

theorem weighted_indices_selected (bm_verts : List BMVert) (smooth_mode : String)
    (hmode : smooth_mode ≠ "all") (vi : Nat)
    (hvi : vi ∈ (get_face_weighted_normals bm_verts smooth_mode).vertex_indices) :
    ∃ v ∈ bm_verts, v.select = true ∧ v.index = vi := by
  rw [get_face_weighted_normals_eq_masked bm_verts smooth_mode hmode] at hvi
  simp only [List.mem_map] at hvi
  obtain ⟨v, hv, hidx⟩ := hvi
  rw [contributingVertsW] at hv
  rw [List.mem_filter] at hv
  obtain ⟨hv1, _⟩ := hv
  rw [List.mem_filter] at hv1
  exact ⟨v, hv1.1, hv1.2, hidx⟩

theorem smoothed_lists_length (bm_verts : List BMVert) (smooth_mode : String) :
    (get_smoothed_vertex_normals bm_verts smooth_mode).vertex_indices.length =
    (get_smoothed_vertex_normals bm_verts smooth_mode).vertex_normals.length := by
  rw [get_smoothed_vertex_normals_eq]
  simp only [List.length_map]

theorem weighted_lists_length (bm_verts : List BMVert) (smooth_mode : String) :
    (get_face_weighted_normals bm_verts smooth_mode).vertex_indices.length =
    (get_face_weighted_normals bm_verts smooth_mode).vertex_normals.length := by
  by_cases hmode : smooth_mode = "all"
  · subst hmode
    rw [get_face_weighted_normals_eq_all]
    simp only [List.length_map]
  · rw [get_face_weighted_normals_eq_masked bm_verts smooth_mode hmode]
    simp only [List.length_map]

/-! ## The claims -/

/-- **C1** (Normal Writer merge): with positionally indexed loops and an
override set with distinct keys and matching value list, the merge returns a
full per-loop array in which a loop whose vertex has an override gets exactly
that override (hence identically for all loops sharing that vertex), and a
loop whose vertex has no override gets its recomputed split normal. -/
theorem normal_writer_merge_spec (me_loops : List MLoop) (vis : List Nat)
    (vns : List Vec3)
    (hidx : ∀ i (h : i < me_loops.length), (me_loops.get ⟨i, h⟩).index = i)
    (hkeys : vis.Nodup) (hlen : vis.length = vns.length) :
    ∃ clnors, set_smooth_normals me_loops vis vns = some clnors ∧
      clnors.length = me_loops.length ∧
      (∀ i (h : i < me_loops.length),
        ((me_loops.get ⟨i, h⟩).vertex_index ∈ vis →
          clnors[i]? = vns[(List.indexOf (me_loops.get ⟨i, h⟩).vertex_index vis)]?) ∧
        ((me_loops.get ⟨i, h⟩).vertex_index ∉ vis →
          clnors[i]? = some (me_loops.get ⟨i, h⟩).normal)) ∧
      (∀ i j (hi : i < me_loops.length) (hj : j < me_loops.length),
        (me_loops.get ⟨i, hi⟩).vertex_index = (me_loops.get ⟨j, hj⟩).vertex_index →
        (me_loops.get ⟨i, hi⟩).vertex_index ∈ vis →
        clnors[i]? = clnors[j]?) := by
  have hchar := set_smooth_normals_eq_map me_loops vis vns hidx (le_of_eq hlen)
  refine ⟨me_loops.map (mergeVal vis vns), hchar, by rw [List.length_map], ?_, ?_⟩
  · intro i h
    have hget : (me_loops.map (mergeVal vis vns))[i]? =
        some (mergeVal vis vns (me_loops.get ⟨i, h⟩)) := by
      rw [List.getElem?_map, List.getElem?_eq_getElem h]
      rfl
    constructor
    · intro hmem
      rw [hget, mergeVal, if_pos hmem]
      have hlt : List.indexOf (me_loops.get ⟨i, h⟩).vertex_index vis < vns.length := by
        rw [← hlen]
        exact List.indexOf_lt_length.mpr hmem
      rw [List.getElem?_eq_getElem hlt, List.getD_eq_getElem?_getD,
        List.getElem?_eq_getElem hlt]
      rfl
    · intro hmem
      rw [hget, mergeVal, if_neg hmem]
  · intro i j hi hj hvij hmem
    have hgi : (me_loops.map (mergeVal vis vns))[i]? =
        some (mergeVal vis vns (me_loops.get ⟨i, hi⟩)) := by
      rw [List.getElem?_map, List.getElem?_eq_getElem hi]
      rfl
    have hgj : (me_loops.map (mergeVal vis vns))[j]? =
        some (mergeVal vis vns (me_loops.get ⟨j, hj⟩)) := by
      rw [List.getElem?_map, List.getElem?_eq_getElem hj]
      rfl
    rw [hgi, hgj, mergeVal, mergeVal, hvij]
    simp only [if_pos (hvij ▸ hmem)]

/-- Witness mesh for C1: three loops over two vertices, one override. -/
def c1loops : List MLoop :=
  [⟨0, 5, ⟨1, 0, 0⟩⟩, ⟨1, 5, ⟨0, 1, 0⟩⟩, ⟨2, 7, ⟨0, 0, 1⟩⟩]

theorem normal_writer_merge_spec_witness :
    (∀ i (h : i < c1loops.length), (c1loops.get ⟨i, h⟩).index = i) ∧
    ([5] : List Nat).Nodup ∧ ([5] : List Nat).length = [(⟨0, 0, 1⟩ : Vec3)].length ∧
    (∃ clnors, set_smooth_normals c1loops [5] [(⟨0, 0, 1⟩ : Vec3)] = some clnors ∧
      clnors.length = c1loops.length ∧
      (∀ i (h : i < c1loops.length),
        ((c1loops.get ⟨i, h⟩).vertex_index ∈ [5] →
          clnors[i]? = [(⟨0, 0, 1⟩ : Vec3)][(List.indexOf (c1loops.get ⟨i, h⟩).vertex_index [5])]?) ∧
        ((c1loops.get ⟨i, h⟩).vertex_index ∉ [5] →
          clnors[i]? = some (c1loops.get ⟨i, h⟩).normal)) ∧
      (∀ i j (hi : i < c1loops.length) (hj : j < c1loops.length),
        (c1loops.get ⟨i, hi⟩).vertex_index = (c1loops.get ⟨j, hj⟩).vertex_index →
        (c1loops.get ⟨i, hi⟩).vertex_index ∈ [5] →
        clnors[i]? = clnors[j]?)) :=
  ⟨by decide, by decide, rfl,
    normal_writer_merge_spec c1loops [5] [⟨0, 0, 1⟩] (by decide) (by decide) rfl⟩

instance (ps : List BPoly) (n : Nat) : Decidable (polysInBounds ps n) :=
  inferInstanceAs (Decidable (∀ p ∈ ps, p.loop_start + p.loop_total ≤ n))

/-- **C2** (Orientation Flipper transform): in a mesh whose polygon loop
ranges are in bounds and pairwise disjoint, flipping negates the normal of
every loop of a selected polygon's range and reverses the order of all but
the first of them, while every loop of a non-selected polygon is unchanged. -/
theorem flip_normals_spec (me_polygons : List BPoly) (clnors : List Vec3)
    (hb : polysInBounds me_polygons clnors.length)
    (hdisj : List.Pairwise rangesDisjoint me_polygons) :
    (∀ p ∈ me_polygons, p.select = true →
      (0 < p.loop_total →
        (flip_normals me_polygons clnors)[p.loop_start]? =
          (clnors[p.loop_start]?).map (fun n => -n)) ∧
      (∀ j, 1 ≤ j → j < p.loop_total →
        (flip_normals me_polygons clnors)[p.loop_start + j]? =
          (clnors[p.loop_start + p.loop_total - j]?).map (fun n => -n))) ∧
    (∀ p ∈ me_polygons, p.select = false →
      ∀ j, j < p.loop_total →
        (flip_normals me_polygons clnors)[p.loop_start + j]? =
          clnors[p.loop_start + j]?) := by
  rw [flip_normals_eq_fold]
  constructor
  · intro p hp hsel
    constructor
    · intro hpos
      rw [flip_fold_inside me_polygons clnors p p.loop_start hb hdisj hp hsel
        (by rw [inRange]; omega)]
      rw [if_pos rfl]
    · intro j hj1 hj2
      rw [flip_fold_inside me_polygons clnors p (p.loop_start + j) hb hdisj hp hsel
        (by rw [inRange]; omega)]
      rw [if_neg (by omega)]
      have harith : p.loop_start + p.loop_total - (p.loop_start + j - p.loop_start)
          = p.loop_start + p.loop_total - j := by omega
      rw [harith]
  · intro p hp hsel j hj
    refine flip_fold_outside me_polygons clnors (p.loop_start + j) hb ?_
    intro q hq hqsel
    have hne : q ≠ p := by
      intro hqp
      rw [hqp, hsel] at hqsel
      exact Bool.false_ne_true hqsel
    have hqp : rangesDisjoint q p :=
      List.Pairwise.forall rangesDisjoint_symm hdisj hq hp hne
    rw [rangesDisjoint] at hqp
    rw [inRange]
    omega

/-- Witness mesh for C2: a selected triangle next to an unselected triangle. -/
def c2polys : List BPoly :=
  [⟨0, 3, true, ⟨0, 0, 1⟩⟩, ⟨3, 3, false, ⟨0, 0, 1⟩⟩]

/-- Witness loop-normal array for C2. -/
def c2clnors : List Vec3 :=
  [⟨1, 0, 0⟩, ⟨0, 1, 0⟩, ⟨0, 0, 1⟩, ⟨1, 0, 0⟩, ⟨0, 1, 0⟩, ⟨0, 0, 1⟩]

theorem flip_normals_spec_witness :
    polysInBounds c2polys c2clnors.length ∧
    List.Pairwise rangesDisjoint c2polys ∧
    ((∀ p ∈ c2polys, p.select = true →
      (0 < p.loop_total →
        (flip_normals c2polys c2clnors)[p.loop_start]? =
          (c2clnors[p.loop_start]?).map (fun n => -n)) ∧
      (∀ j, 1 ≤ j → j < p.loop_total →
        (flip_normals c2polys c2clnors)[p.loop_start + j]? =
          (c2clnors[p.loop_start + p.loop_total - j]?).map (fun n => -n))) ∧
    (∀ p ∈ c2polys, p.select = false →
      ∀ j, j < p.loop_total →
        (flip_normals c2polys c2clnors)[p.loop_start + j]? =
          c2clnors[p.loop_start + j]?)) :=
  ⟨by decide, by decide, flip_normals_spec c2polys c2clnors (by decide) (by decide)⟩

/-- **C9** (Harden idempotence): on a mesh with in-bounds, pairwise-disjoint
polygon loop ranges, applying `harden_normals` twice with the same selection
yields the same loop-normal array as applying it once. -/
theorem harden_normals_idempotent (me_polygons : List BPoly) (clnors : List Vec3)
    (hb : polysInBounds me_polygons clnors.length)
    (hdisj : List.Pairwise rangesDisjoint me_polygons) :
    harden_normals me_polygons (harden_normals me_polygons clnors) =
      harden_normals me_polygons clnors := by
  simp only [harden_normals_eq_fold]
  have hlen1 : (me_polygons.foldl (maskedWriteStep (fun p => p.normal)) clnors).length
      = clnors.length := maskedWrite_fold_length _ me_polygons clnors hb
  have hb1 : polysInBounds me_polygons
      (me_polygons.foldl (maskedWriteStep (fun p => p.normal)) clnors).length := by
    rw [hlen1]; exact hb
  apply List.ext_getElem?
  intro i
  by_cases hcov : ∃ p ∈ me_polygons, p.select = true ∧ inRange p i
  · obtain ⟨p, hp, hsel, hi⟩ := hcov
    rw [maskedWrite_fold_inside _ me_polygons _ p i hb1 hdisj hp hsel hi,
      maskedWrite_fold_inside _ me_polygons clnors p i hb hdisj hp hsel hi]
  · push_neg at hcov
    have hmask : ∀ p ∈ me_polygons, p.select = true → ¬ inRange p i :=
      fun p hp hsel => hcov p hp hsel
    rw [maskedWrite_fold_outside _ me_polygons _ i hb1 hmask]

/-- Witness mesh for C9. -/
def c9polys : List BPoly :=
  [⟨0, 3, true, ⟨0, 0, 1⟩⟩, ⟨3, 4, false, ⟨0, 1, 0⟩⟩]

/-- Witness loop-normal array for C9. -/
def c9clnors : List Vec3 :=
  [⟨1, 0, 0⟩, ⟨0, 1, 0⟩, ⟨0, 0, 1⟩, ⟨1, 0, 0⟩, ⟨0, 1, 0⟩, ⟨0, 0, 1⟩, ⟨1, 0, 0⟩]

theorem harden_normals_idempotent_witness :
    polysInBounds c9polys c9clnors.length ∧
    List.Pairwise rangesDisjoint c9polys ∧
    harden_normals c9polys (harden_normals c9polys c9clnors) =
      harden_normals c9polys c9clnors :=
  ⟨by decide, by decide, harden_normals_idempotent c9polys c9clnors (by decide) (by decide)⟩

/-- **C10** (Flip involution): on a mesh with in-bounds, pairwise-disjoint
polygon loop ranges, applying the flip loop-normal transform twice with the
same polygon selection (the host's winding flip having been applied and
reverted in between, which leaves every polygon's loop range unchanged)
restores the loop-normal array exactly. -/
theorem flip_normals_involution (me_polygons : List BPoly) (clnors : List Vec3)
    (hb : polysInBounds me_polygons clnors.length)
    (hdisj : List.Pairwise rangesDisjoint me_polygons) :
    flip_normals me_polygons (flip_normals me_polygons clnors) = clnors := by
  simp only [flip_normals_eq_fold]
  have hlen1 : (me_polygons.foldl flipStepFun clnors).length = clnors.length :=
    flip_fold_length me_polygons clnors hb
  have hb1 : polysInBounds me_polygons (me_polygons.foldl flipStepFun clnors).length := by
    rw [hlen1]; exact hb
  apply List.ext_getElem?
  intro i
  by_cases hcov : ∃ p ∈ me_polygons, p.select = true ∧ inRange p i
  · obtain ⟨p, hp, hsel, hi⟩ := hcov
    have hir : inRange p i := hi
    rw [inRange] at hir
    rw [flip_fold_inside me_polygons _ p i hb1 hdisj hp hsel hi]
    by_cases hfirst : i = p.loop_start
    · rw [if_pos hfirst,
        flip_fold_inside me_polygons clnors p p.loop_start hb hdisj hp hsel
          (by rw [inRange]; omega),
        if_pos rfl, hfirst]
      cases hx : clnors[p.loop_start]? with
      | none => rfl
      | some v => simp only [Option.map_some', Vec3.neg_neg3]
    · rw [if_neg hfirst]
      have hjr : inRange p (p.loop_start + p.loop_total - (i - p.loop_start)) := by
        rw [inRange]; omega
      rw [flip_fold_inside me_polygons clnors p _ hb hdisj hp hsel hjr,
        if_neg (by omega)]
      have harith : p.loop_start + p.loop_total -
          (p.loop_start + p.loop_total - (i - p.loop_start) - p.loop_start) = i := by
        omega
      rw [harith]
      cases hx : clnors[i]? with
      | none => rfl
      | some v => simp only [Option.map_some', Vec3.neg_neg3]
  · push_neg at hcov
    have hmask : ∀ p ∈ me_polygons, p.select = true → ¬ inRange p i :=
      fun p hp hsel => hcov p hp hsel
    rw [flip_fold_outside me_polygons _ i hb1 hmask,
      flip_fold_outside me_polygons clnors i hb hmask]

/-- Witness mesh for C10. -/
def c10polys : List BPoly :=
  [⟨0, 4, true, ⟨0, 0, 1⟩⟩, ⟨4, 3, false, ⟨0, 1, 0⟩⟩]

/-- Witness loop-normal array for C10. -/
def c10clnors : List Vec3 :=
  [⟨1, 0, 0⟩, ⟨0, 1, 0⟩, ⟨0, 0, 1⟩, ⟨1, 1, 0⟩, ⟨0, 1, 1⟩, ⟨1, 0, 1⟩, ⟨1, 1, 1⟩]

theorem flip_normals_involution_witness :
    polysInBounds c10polys c10clnors.length ∧
    List.Pairwise rangesDisjoint c10polys ∧
    flip_normals c10polys (flip_normals c10polys c10clnors) = c10clnors :=
  ⟨by decide, by decide, flip_normals_involution c10polys c10clnors (by decide) (by decide)⟩

/-! ### C3: edge-mode adjacency -/

theorem extend_foldl_eq_flatMap (es : List BMEdge) :
    ∀ acc : List BMFace,
      es.foldl (fun ls_faces e => ls_faces ++ e.link_faces) acc =
        acc ++ es.flatMap (fun e => e.link_faces) := by
  induction es with
  | nil => intro acc; simp
  | cons e es ih =>
    intro acc
    rw [List.foldl_cons, ih, List.flatMap_cons, List.append_assoc]

theorem get_linked_faces_edge (vertex : BMVert) (ig : Bool) :
    get_linked_faces vertex "edge" ig =
      (vertex.link_edges.filter (fun e => e.select || ig)).flatMap
        (fun e => e.link_faces) := by
  rw [get_linked_faces, if_neg (by decide), if_pos rfl]
  rw [extend_foldl_eq_flatMap, List.nil_append]

/-- Face, edges and vertex on which the claimed deduplication fails: both
selected edges of the vertex are incident to the same face (index 0). -/
def c3face : BMFace := ⟨0, false, ⟨0, 0, 1⟩, 1⟩

/-- One selected edge incident to `c3face`. -/
def c3edge : BMEdge := ⟨true, [c3face]⟩

/-- A vertex with two selected incident edges, both incident to `c3face`. -/
def c3vert : BMVert := ⟨0, true, [c3face], [c3edge, c3edge]⟩

/-- **C3 counterexample**: the `edge`-mode linked-face list of `c3vert`
contains face index 0 twice — duplicates are NOT removed, contradicting the
claim that no face occurs more than once in the set used for aggregation. -/
theorem edge_mode_adjacency_counterexample :
    ((get_linked_faces c3vert "edge" false).map (fun f => f.index)) = [0, 0] ∧
    ¬ ((get_linked_faces c3vert "edge" false).map (fun f => f.index)).Nodup := by
  have h : ((get_linked_faces c3vert "edge" false).map (fun f => f.index)) = [0, 0] := rfl
  exact ⟨h, by rw [h]; decide⟩

/-- **C3 amended** (Edge-mode adjacency): under the `edge` selection-mode
tag, the linked-face list is the concatenation of the incident-face lists of
the selected edges incident to the vertex (of all incident edges when
`ignore_selection` is set).  The *set* of faces is the union over those
edges, but duplicates are retained: a face occurs once per selected incident
edge that links it. -/
theorem edge_mode_adjacency_amended (vertex : BMVert) (ig : Bool) :
    (∀ f, f ∈ get_linked_faces vertex "edge" ig ↔
      ∃ e ∈ vertex.link_edges, (e.select || ig) = true ∧ f ∈ e.link_faces) ∧
    (∀ fi : Nat,
      ((get_linked_faces vertex "edge" ig).map (fun f => f.index)).count fi =
      ((vertex.link_edges.filter (fun e => e.select || ig)).map
        (fun e => (e.link_faces.map (fun f => f.index)).count fi)).sum) := by
  rw [get_linked_faces_edge]
  constructor
  · intro f
    rw [List.mem_flatMap]
    constructor
    · rintro ⟨e, he, hf⟩
      rw [List.mem_filter] at he
      exact ⟨e, he.1, he.2, hf⟩
    · rintro ⟨e, he, hsel, hf⟩
      exact ⟨e, List.mem_filter.mpr ⟨he, hsel⟩, hf⟩
  · intro fi
    rw [List.map_flatMap, List.count_flatMap]
    congr 1

/-! ### C4: unweighted aggregation -/

theorem index_ne_symm : Symmetric (fun a b : BMVert => a.index ≠ b.index) := by
  intro a b h he
  exact h he.symm

/-- **C4** (Unweighted aggregation): in a mesh with distinct vertex indices,
every selected vertex with a non-empty linked-face set receives exactly one
override, equal to the sum of the linked faces' normals divided by the face
count and then normalized (the code normalizes the plain sum, which is the
same direction); a selected vertex with an empty linked-face set is excluded
from the override set entirely. -/
theorem unweighted_aggregation_spec (bm_verts : List BMVert) (smooth_mode : String)
    (v : BMVert) (hv : v ∈ bm_verts) (hsel : v.select = true)
    (hnodup : (bm_verts.map (fun w => w.index)).Nodup) :
    (0 < (get_linked_faces v smooth_mode).length →
      ∃ j : Nat, (get_smoothed_vertex_normals bm_verts smooth_mode).vertex_indices[j]? =
          some v.index ∧
        (get_smoothed_vertex_normals bm_verts smooth_mode).vertex_normals[j]? =
          some (Vec3.normalized
            ((1 / ((get_linked_faces v smooth_mode).length : ℝ)) •
              sumFaceNormals (get_linked_faces v smooth_mode)))) ∧
    ((get_linked_faces v smooth_mode).length = 0 →
      v.index ∉ (get_smoothed_vertex_normals bm_verts smooth_mode).vertex_indices) := by
  constructor
  · intro hpos
    have hvc : v ∈ contributingVerts bm_verts smooth_mode := by
      rw [contributingVerts, List.mem_filter, List.mem_filter]
      exact ⟨⟨hv, hsel⟩, by rw [decide_eq_true_eq]; exact hpos⟩
    obtain ⟨j, hj, hjv⟩ := List.getElem_of_mem hvc
    refine ⟨j, ?_, ?_⟩
    · rw [get_smoothed_vertex_normals_eq]
      rw [List.getElem?_map, List.getElem?_eq_getElem hj, hjv]
      rfl
    · rw [get_smoothed_vertex_normals_eq]
      rw [List.getElem?_map, List.getElem?_eq_getElem hj, hjv]
      have hcpos : (0 : ℝ) < 1 / ((get_linked_faces v smooth_mode).length : ℝ) :=
        one_div_pos.mpr (Nat.cast_pos.mpr hpos)
      rw [Option.map_some', Vec3.normalized_smul_pos hcpos]
  · intro hzero hmem
    rw [get_smoothed_vertex_normals_eq] at hmem
    simp only [List.mem_map] at hmem
    obtain ⟨w, hw, hwi⟩ := hmem
    obtain ⟨hw1, _, hw3⟩ := contributingVerts_mem bm_verts smooth_mode w hw
    have hwv : w = v := by
      by_contra hne
      exact (List.Pairwise.forall index_ne_symm (List.pairwise_map.mp hnodup)
        hw1 hv hne) hwi
    rw [hwv, hzero] at hw3
    exact Nat.lt_irrefl 0 hw3

/-- Witness face for C4: selected, normal `(0,0,2)`. -/
def c4face : BMFace := ⟨0, true, ⟨0, 0, 2⟩, 1⟩

/-- Witness vertex for C4: selected, one linked face. -/
def c4vert : BMVert := ⟨0, true, [c4face], []⟩

theorem unweighted_aggregation_spec_witness :
    c4vert ∈ [c4vert] ∧ c4vert.select = true ∧
    (([c4vert].map (fun w => w.index)).Nodup) ∧
    ((0 < (get_linked_faces c4vert "face").length →
      ∃ j : Nat, (get_smoothed_vertex_normals [c4vert] "face").vertex_indices[j]? =
          some c4vert.index ∧
        (get_smoothed_vertex_normals [c4vert] "face").vertex_normals[j]? =
          some (Vec3.normalized
            ((1 / ((get_linked_faces c4vert "face").length : ℝ)) •
              sumFaceNormals (get_linked_faces c4vert "face")))) ∧
    ((get_linked_faces c4vert "face").length = 0 →
      c4vert.index ∉ (get_smoothed_vertex_normals [c4vert] "face").vertex_indices)) :=
  ⟨List.mem_cons_self c4vert [], rfl, by decide,
    unweighted_aggregation_spec [c4vert] "face" c4vert
      (List.mem_cons_self c4vert []) rfl (by decide)⟩

/-! ### C5: the hard Direct Normal Setter writes the unnormalized vector -/

/-- Mesh for C5: a selected triangle (loops 0-2) and an unselected triangle
(loops 3-5). -/
def c5polys : List BPoly :=
  [⟨0, 3, true, ⟨0, 0, 1⟩⟩, ⟨3, 3, false, ⟨0, 1, 0⟩⟩]

/-- Input loop normals for C5. -/
def c5clnors : List Vec3 :=
  [⟨1, 0, 0⟩, ⟨1, 0, 0⟩, ⟨1, 0, 0⟩, ⟨0, 1, 0⟩, ⟨0, 1, 0⟩, ⟨0, 1, 0⟩]

theorem norm_002 : Vec3.norm ⟨0, 0, 2⟩ = 2 := by
  show Real.sqrt ((0 : ℝ) ^ 2 + 0 ^ 2 + 2 ^ 2) = 2
  rw [show (0 : ℝ) ^ 2 + 0 ^ 2 + 2 ^ 2 = 2 ^ 2 by norm_num,
    Real.sqrt_sq (by norm_num : (0 : ℝ) ≤ 2)]

/-- **C5** (code bug evaluated): `set_specific_normal_vector` with direction
`(0,0,2)` writes the raw vector `(0,0,2)` to every loop of the selected
polygon, although its normalization is `(0,0,1) ≠ (0,0,2)` — the source
computes `n = normal.normalized()` and then never uses it.  Loops of the
unselected polygon are unchanged. -/
theorem set_direction_hard_bug_eval :
    (set_specific_normal_vector c5polys c5clnors ⟨0, 0, 2⟩)[0]? = some ⟨0, 0, 2⟩ ∧
    (set_specific_normal_vector c5polys c5clnors ⟨0, 0, 2⟩)[1]? = some ⟨0, 0, 2⟩ ∧
    (set_specific_normal_vector c5polys c5clnors ⟨0, 0, 2⟩)[2]? = some ⟨0, 0, 2⟩ ∧
    Vec3.normalized ⟨0, 0, 2⟩ = ⟨0, 0, 1⟩ ∧
    ((⟨0, 0, 2⟩ : Vec3) ≠ ⟨0, 0, 1⟩) ∧
    (set_specific_normal_vector c5polys c5clnors ⟨0, 0, 2⟩)[3]? = c5clnors[3]? ∧
    (set_specific_normal_vector c5polys c5clnors ⟨0, 0, 2⟩)[4]? = c5clnors[4]? ∧
    (set_specific_normal_vector c5polys c5clnors ⟨0, 0, 2⟩)[5]? = c5clnors[5]? := by
  refine ⟨rfl, rfl, rfl, ?_, ?_, rfl, rfl, rfl⟩
  · rw [Vec3.normalized, if_neg (by rw [norm_002]; norm_num), norm_002]
    show Vec3.mk ((2 : ℝ)⁻¹ * 0) ((2 : ℝ)⁻¹ * 0) ((2 : ℝ)⁻¹ * 2) = ⟨0, 0, 1⟩
    rw [Vec3.ext_iff3]
    norm_num
  · intro h
    rw [Vec3.ext_iff3] at h
    norm_num at h

/-! ### C8: fallback of the Direct Normal Setter to the soft path -/

/-- **C8** (Precondition-violation fallback): when the hard per-polygon mode
is not available (selection granularity not polygon-level, or the allow-seams
flag unset), `SetSpecificNormalVector.execute` does not fail: it builds a
per-vertex override of the caller-supplied direction for every selected
vertex and merges it through the Normal Writer, so every loop of a selected
vertex gets the direction and every other loop keeps its split normal. -/
theorem set_direction_fallback_spec (face_select_mode allow : Bool)
    (bm_verts : List BMVert) (me_loops : List MLoop) (me_polygons : List BPoly)
    (custom_normal : Vec3)
    (hnotpoly : ¬ (face_select_mode = true ∧ allow = true))
    (hidx : ∀ i (h : i < me_loops.length), (me_loops.get ⟨i, h⟩).index = i) :
    ∃ clnors, set_specific_execute face_select_mode allow bm_verts me_loops
        me_polygons custom_normal = some clnors ∧
      clnors.length = me_loops.length ∧
      ∀ i (h : i < me_loops.length),
        ((∃ v ∈ bm_verts, v.select = true ∧
            v.index = (me_loops.get ⟨i, h⟩).vertex_index) →
          clnors[i]? = some custom_normal) ∧
        ((∀ v ∈ bm_verts, v.index = (me_loops.get ⟨i, h⟩).vertex_index →
            v.select = false) →
          clnors[i]? = some (me_loops.get ⟨i, h⟩).normal) := by
  rw [set_specific_execute,
    if_neg (by rw [Bool.and_eq_true]; exact hnotpoly)]
  have hlen : ((bm_verts.filter (fun v => v.select)).map (fun v => v.index)).length ≤
      (List.replicate ((bm_verts.filter (fun v => v.select)).map
        (fun v => v.index)).length custom_normal).length := by
    rw [List.length_replicate]
  have hchar := set_smooth_normals_eq_map me_loops
    ((bm_verts.filter (fun v => v.select)).map (fun v => v.index))
    (List.replicate ((bm_verts.filter (fun v => v.select)).map
      (fun v => v.index)).length custom_normal) hidx hlen
  refine ⟨_, hchar, by rw [List.length_map], ?_⟩
  intro i h
  have hget : (me_loops.map (mergeVal
      ((bm_verts.filter (fun v => v.select)).map (fun v => v.index))
      (List.replicate ((bm_verts.filter (fun v => v.select)).map
        (fun v => v.index)).length custom_normal)))[i]? =
      some (mergeVal
        ((bm_verts.filter (fun v => v.select)).map (fun v => v.index))
        (List.replicate ((bm_verts.filter (fun v => v.select)).map
          (fun v => v.index)).length custom_normal)
        (me_loops.get ⟨i, h⟩)) := by
    rw [List.getElem?_map, List.getElem?_eq_getElem h]
    rfl
  constructor
  · rintro ⟨v, hv, hvsel, hvidx⟩
    rw [hget, mergeVal]
    have hmem : (me_loops.get ⟨i, h⟩).vertex_index ∈
        (bm_verts.filter (fun v => v.select)).map (fun v => v.index) := by
      rw [List.mem_map]
      exact ⟨v, List.mem_filter.mpr ⟨hv, hvsel⟩, hvidx⟩
    rw [if_pos hmem]
    have hlt : List.indexOf (me_loops.get ⟨i, h⟩).vertex_index
        ((bm_verts.filter (fun v => v.select)).map (fun v => v.index)) <
        ((bm_verts.filter (fun v => v.select)).map (fun v => v.index)).length :=
      List.indexOf_lt_length.mpr hmem
    rw [List.getD_eq_getElem?_getD, List.getElem?_replicate, if_pos hlt]
    rfl
  · intro hnone
    rw [hget, mergeVal]
    rw [if_neg ?_]
    intro hmem
    rw [List.mem_map] at hmem
    obtain ⟨v, hvf, hvidx⟩ := hmem
    rw [List.mem_filter] at hvf
    have := hnone v hvf.1 hvidx
    rw [this] at hvf
    exact Bool.false_ne_true hvf.2

/-- Witness vertex for C8: a selected vertex with index 0. -/
def c8vert : BMVert := ⟨0, true, [], []⟩

/-- Witness loops for C8: loop 0 references vertex 0 (selected), loop 1
references vertex 1 (no such vertex). -/
def c8loops : List MLoop := [⟨0, 0, ⟨1, 0, 0⟩⟩, ⟨1, 1, ⟨0, 1, 0⟩⟩]

theorem set_direction_fallback_spec_witness :
    (¬ ((true : Bool) = true ∧ (false : Bool) = true)) ∧
    (∀ i (h : i < c8loops.length), (c8loops.get ⟨i, h⟩).index = i) ∧
    (∃ clnors, set_specific_execute true false [c8vert] c8loops [] ⟨0, 0, 2⟩ = some clnors ∧
      clnors.length = c8loops.length ∧
      ∀ i (h : i < c8loops.length),
        ((∃ v ∈ [c8vert], v.select = true ∧
            v.index = (c8loops.get ⟨i, h⟩).vertex_index) →
          clnors[i]? = some ⟨0, 0, 2⟩) ∧
        ((∀ v ∈ [c8vert], v.index = (c8loops.get ⟨i, h⟩).vertex_index →
            v.select = false) →
          clnors[i]? = some (c8loops.get ⟨i, h⟩).normal)) :=
  ⟨by decide, by decide,
    set_direction_fallback_spec true false [c8vert] c8loops [] ⟨0, 0, 2⟩
      (by decide) (by decide)⟩

/-! ### C6: mask exclusivity -/

theorem unselected_range_mask (ps : List BPoly) (p : BPoly)
    (hdisj : List.Pairwise rangesDisjoint ps)
    (hp : p ∈ ps) (hpsel : p.select = false) (j : Nat) (hj : j < p.loop_total) :
    ∀ q ∈ ps, q.select = true → ¬ inRange q (p.loop_start + j) := by
  intro q hq hqsel
  have hne : q ≠ p := by
    intro hqp
    rw [hqp, hpsel] at hqsel
    exact Bool.false_ne_true hqsel
  have hqp : rangesDisjoint q p :=
    List.Pairwise.forall rangesDisjoint_symm hdisj hq hp hne
  rw [rangesDisjoint] at hqp
  rw [inRange]
  omega

theorem merge_keeps_unoverridden (me_loops : List MLoop) (vis : List Nat)
    (vns : List Vec3)
    (hidx : ∀ i (h : i < me_loops.length), (me_loops.get ⟨i, h⟩).index = i)
    (hlen : vis.length ≤ vns.length)
    (i : Nat) (h : i < me_loops.length)
    (hnot : (me_loops.get ⟨i, h⟩).vertex_index ∉ vis) :
    ∃ out, set_smooth_normals me_loops vis vns = some out ∧
      out[i]? = some (me_loops.get ⟨i, h⟩).normal := by
  refine ⟨_, set_smooth_normals_eq_map me_loops vis vns hidx hlen, ?_⟩
  rw [List.getElem?_map, List.getElem?_eq_getElem h]
  show some (mergeVal vis vns (me_loops.get ⟨i, h⟩)) = _
  rw [mergeVal, if_neg hnot]

/-- **C6** (Mask exclusivity): for each of the five operations, every loop
whose referenced vertex (for the vertex-keyed operations) or owning polygon
(for the polygon-range operations) is outside the active selection mask has
an identical normal before and after the operation. -/
theorem mask_exclusivity_spec
    (bm_verts : List BMVert) (me_loops : List MLoop) (me_polygons : List BPoly)
    (clnors : List Vec3)
    (hidx : ∀ i (h : i < me_loops.length), (me_loops.get ⟨i, h⟩).index = i)
    (hb : polysInBounds me_polygons clnors.length)
    (hdisj : List.Pairwise rangesDisjoint me_polygons) :
    (∀ (smooth_mode : String) i (h : i < me_loops.length),
      (∀ v ∈ bm_verts, v.index = (me_loops.get ⟨i, h⟩).vertex_index →
        v.select = false) →
      ∃ out, masked_soften_op bm_verts me_loops smooth_mode = some out ∧
        out[i]? = some (me_loops.get ⟨i, h⟩).normal) ∧
    (∀ (smooth_mode : String), smooth_mode ≠ "all" →
      ∀ i (h : i < me_loops.length),
      (∀ v ∈ bm_verts, v.index = (me_loops.get ⟨i, h⟩).vertex_index →
        v.select = false) →
      ∃ out, face_weighted_op bm_verts me_loops smooth_mode = some out ∧
        out[i]? = some (me_loops.get ⟨i, h⟩).normal) ∧
    (∀ p ∈ me_polygons, p.select = false → ∀ j, j < p.loop_total →
      (harden_normals me_polygons clnors)[p.loop_start + j]? =
        clnors[p.loop_start + j]?) ∧
    (∀ p ∈ me_polygons, p.select = false → ∀ j, j < p.loop_total →
      (flip_normals me_polygons clnors)[p.loop_start + j]? =
        clnors[p.loop_start + j]?) ∧
    (∀ (d : Vec3), ∀ p ∈ me_polygons, p.select = false → ∀ j, j < p.loop_total →
      (set_specific_normal_vector me_polygons clnors d)[p.loop_start + j]? =
        clnors[p.loop_start + j]?) ∧
    (∀ (fm al : Bool) (d : Vec3), ¬ (fm = true ∧ al = true) →
      ∀ i (h : i < me_loops.length),
      (∀ v ∈ bm_verts, v.index = (me_loops.get ⟨i, h⟩).vertex_index →
        v.select = false) →
      ∃ out, set_specific_execute fm al bm_verts me_loops me_polygons d = some out ∧
        out[i]? = some (me_loops.get ⟨i, h⟩).normal) := by
  refine ⟨?_, ?_, ?_, ?_, ?_, ?_⟩
  · intro smooth_mode i h hout
    rw [masked_soften_op]
    refine merge_keeps_unoverridden me_loops _ _ hidx
      (le_of_eq (smoothed_lists_length bm_verts smooth_mode)) i h ?_
    intro hmem
    obtain ⟨v, hv, hvsel, hvidx⟩ := smoothed_indices_selected bm_verts smooth_mode _ hmem
    rw [hout v hv hvidx] at hvsel
    exact Bool.false_ne_true hvsel
  · intro smooth_mode hmode i h hout
    rw [face_weighted_op]
    refine merge_keeps_unoverridden me_loops _ _ hidx
      (le_of_eq (weighted_lists_length bm_verts smooth_mode)) i h ?_
    intro hmem
    obtain ⟨v, hv, hvsel, hvidx⟩ :=
      weighted_indices_selected bm_verts smooth_mode hmode _ hmem
    rw [hout v hv hvidx] at hvsel
    exact Bool.false_ne_true hvsel
  · intro p hp hpsel j hj
    rw [harden_normals_eq_fold]
    exact maskedWrite_fold_outside _ me_polygons clnors _ hb
      (unselected_range_mask me_polygons p hdisj hp hpsel j hj)
  · intro p hp hpsel j hj
    rw [flip_normals_eq_fold]
    exact flip_fold_outside me_polygons clnors _ hb
      (unselected_range_mask me_polygons p hdisj hp hpsel j hj)
  · intro d p hp hpsel j hj
    rw [set_specific_eq_fold]
    exact maskedWrite_fold_outside _ me_polygons clnors _ hb
      (unselected_range_mask me_polygons p hdisj hp hpsel j hj)
  · intro fm al d hfm i h hout
    rw [set_specific_execute, if_neg (by rw [Bool.and_eq_true]; exact hfm)]
    refine merge_keeps_unoverridden me_loops _ _ hidx
      (by rw [List.length_replicate]) i h ?_
    intro hmem
    rw [List.mem_map] at hmem
    obtain ⟨v, hvf, hvidx⟩ := hmem
    rw [List.mem_filter] at hvf
    have := hout v hvf.1 hvidx
    rw [this] at hvf
    exact Bool.false_ne_true hvf.2

/-- Witness vertex for C6 (unselected). -/
def c6vert : BMVert := ⟨0, false, [], []⟩

/-- Witness loops for C6. -/
def c6loops : List MLoop := [⟨0, 0, ⟨1, 0, 0⟩⟩]

/-- Witness polygons for C6 (unselected). -/
def c6polys : List BPoly := [⟨0, 1, false, ⟨0, 0, 1⟩⟩]

/-- Witness loop-normal array for C6. -/
def c6clnors : List Vec3 := [⟨1, 0, 0⟩]

theorem mask_exclusivity_spec_witness :
    (∀ i (h : i < c6loops.length), (c6loops.get ⟨i, h⟩).index = i) ∧
    polysInBounds c6polys c6clnors.length ∧
    List.Pairwise rangesDisjoint c6polys ∧
    ((∀ (smooth_mode : String) i (h : i < c6loops.length),
      (∀ v ∈ [c6vert], v.index = (c6loops.get ⟨i, h⟩).vertex_index →
        v.select = false) →
      ∃ out, masked_soften_op [c6vert] c6loops smooth_mode = some out ∧
        out[i]? = some (c6loops.get ⟨i, h⟩).normal) ∧
    (∀ (smooth_mode : String), smooth_mode ≠ "all" →
      ∀ i (h : i < c6loops.length),
      (∀ v ∈ [c6vert], v.index = (c6loops.get ⟨i, h⟩).vertex_index →
        v.select = false) →
      ∃ out, face_weighted_op [c6vert] c6loops smooth_mode = some out ∧
        out[i]? = some (c6loops.get ⟨i, h⟩).normal) ∧
    (∀ p ∈ c6polys, p.select = false → ∀ j, j < p.loop_total →
      (harden_normals c6polys c6clnors)[p.loop_start + j]? =
        c6clnors[p.loop_start + j]?) ∧
    (∀ p ∈ c6polys, p.select = false → ∀ j, j < p.loop_total →
      (flip_normals c6polys c6clnors)[p.loop_start + j]? =
        c6clnors[p.loop_start + j]?) ∧
    (∀ (d : Vec3), ∀ p ∈ c6polys, p.select = false → ∀ j, j < p.loop_total →
      (set_specific_normal_vector c6polys c6clnors d)[p.loop_start + j]? =
        c6clnors[p.loop_start + j]?) ∧
    (∀ (fm al : Bool) (d : Vec3), ¬ (fm = true ∧ al = true) →
      ∀ i (h : i < c6loops.length),
      (∀ v ∈ [c6vert], v.index = (c6loops.get ⟨i, h⟩).vertex_index →
        v.select = false) →
      ∃ out, set_specific_execute fm al [c6vert] c6loops c6polys d = some out ∧
        out[i]? = some (c6loops.get ⟨i, h⟩).normal)) :=
  ⟨by decide, by decide, by decide,
    mask_exclusivity_spec [c6vert] c6loops c6polys c6clnors
      (by decide) (by decide) (by decide)⟩

/-! ### C7: normalization invariant -/

theorem mem_of_mem_sliceL (xs : List Vec3) (s t : Nat) (c : Vec3)
    (h : c ∈ sliceL xs s t) : c ∈ xs := by
  rw [sliceL] at h
  exact (List.drop_sublist s xs).subset ((List.take_sublist t _).subset h)

theorem mem_of_mem_writeSlice (xs : List Vec3) (s : Nat) (seg : List Vec3)
    (c : Vec3) (h : c ∈ writeSlice xs s seg) : c ∈ xs ∨ c ∈ seg := by
  rw [writeSlice] at h
  rw [List.mem_append] at h
  rcases h with h | h
  · rw [List.mem_append] at h
    rcases h with h | h
    · exact Or.inl ((List.take_sublist s xs).subset h)
    · exact Or.inr h
  · exact Or.inl ((List.drop_sublist (s + seg.length) xs).subset h)

theorem maskedWriteStep_norm (cfun : BPoly → Vec3) (acc : List Vec3) (p : BPoly)
    (hacc : ∀ c ∈ acc, Vec3.norm c = 1)
    (hc : p.select = true → Vec3.norm (cfun p) = 1) :
    ∀ c ∈ maskedWriteStep cfun acc p, Vec3.norm c = 1 := by
  intro c hmem
  rw [maskedWriteStep] at hmem
  by_cases hsel : p.select = true
  · rw [hsel, if_pos rfl] at hmem
    rcases mem_of_mem_writeSlice _ _ _ _ hmem with h | h
    · exact hacc c h
    · rw [List.mem_replicate] at h
      rw [h.2]
      exact hc hsel
  · rw [if_neg (by simpa using hsel)] at hmem
    exact hacc c hmem

theorem flipStepFun_norm (acc : List Vec3) (p : BPoly)
    (hacc : ∀ c ∈ acc, Vec3.norm c = 1) :
    ∀ c ∈ flipStepFun acc p, Vec3.norm c = 1 := by
  intro c hmem
  rw [flipStepFun] at hmem
  by_cases hsel : p.select = true
  · rw [hsel, if_pos rfl] at hmem
    have hacc1 : ∀ c ∈ writeSlice acc p.loop_start
        ((sliceL acc p.loop_start p.loop_total).map (fun n => -n)),
        Vec3.norm c = 1 := by
      intro d hd
      rcases mem_of_mem_writeSlice _ _ _ _ hd with h | h
      · exact hacc d h
      · rw [List.mem_map] at h
        obtain ⟨a, ha, hda⟩ := h
        rw [← hda, Vec3.norm_neg]
        exact hacc a (mem_of_mem_sliceL _ _ _ _ ha)
    rcases mem_of_mem_writeSlice _ _ _ _ hmem with h | h
    · exact hacc1 c h
    · rw [List.mem_reverse] at h
      exact hacc1 c (mem_of_mem_sliceL _ _ _ _ h)
  · rw [if_neg (by simpa using hsel)] at hmem
    exact hacc c hmem

theorem maskedWrite_fold_norm (cfun : BPoly → Vec3) (ps : List BPoly) :
    ∀ (x : List Vec3), (∀ c ∈ x, Vec3.norm c = 1) →
    (∀ p ∈ ps, p.select = true → Vec3.norm (cfun p) = 1) →
    ∀ c ∈ ps.foldl (maskedWriteStep cfun) x, Vec3.norm c = 1 := by
  induction ps with
  | nil => intro x hx _; exact hx
  | cons p ps ih =>
    intro x hx hps
    rw [List.foldl_cons]
    exact ih (maskedWriteStep cfun x p)
      (maskedWriteStep_norm cfun x p hx (hps p (List.mem_cons_self p ps)))
      (fun q hq => hps q (List.mem_cons_of_mem p hq))

theorem flip_fold_norm (ps : List BPoly) :
    ∀ (x : List Vec3), (∀ c ∈ x, Vec3.norm c = 1) →
    ∀ c ∈ ps.foldl flipStepFun x, Vec3.norm c = 1 := by
  induction ps with
  | nil => intro x hx; exact hx
  | cons p ps ih =>
    intro x hx
    rw [List.foldl_cons]
    exact ih (flipStepFun x p) (flipStepFun_norm x p hx)

/-- Vertex for the C7 counterexample, soft-setter side. -/
def c7vert : BMVert := ⟨0, true, [], []⟩

/-- Loop list for the C7 counterexample, soft-setter side. -/
def c7loops : List MLoop := [⟨0, 0, ⟨1, 0, 0⟩⟩]

/-- Two selected faces with exactly opposite unit normals. -/
def c7f1 : BMFace := ⟨0, true, ⟨0, 0, 1⟩, 1⟩

/-- Second face for the C7 counterexample. -/
def c7f2 : BMFace := ⟨1, true, ⟨0, 0, -1⟩, 1⟩

/-- A selected vertex whose two selected linked faces cancel. -/
def c7vert2 : BMVert := ⟨0, true, [c7f1, c7f2], []⟩

theorem norm_zero_vec : Vec3.norm ⟨0, 0, 0⟩ = 0 := by
  show Real.sqrt ((0 : ℝ) ^ 2 + 0 ^ 2 + 0 ^ 2) = 0
  rw [show (0 : ℝ) ^ 2 + 0 ^ 2 + 0 ^ 2 = 0 by norm_num, Real.sqrt_zero]

/-- **C7 counterexample**: (i) the soft Direct Normal Setter writes the raw
caller vector `(0,0,2)`, whose length is 2, not 1; (ii) a smoothed override
whose contributing face normals cancel is the zero vector, whose length is
0, not 1.  Both refute the claim that every written override normal has unit
length. -/
theorem normalization_invariant_counterexample :
    (set_specific_execute false false [c7vert] c7loops [] ⟨0, 0, 2⟩ =
      some [⟨0, 0, 2⟩]) ∧
    Vec3.norm ⟨0, 0, 2⟩ ≠ 1 ∧
    ((get_smoothed_vertex_normals [c7vert2] "face").vertex_normals =
      [(⟨0, 0, 0⟩ : Vec3)]) ∧
    Vec3.norm ⟨0, 0, 0⟩ ≠ 1 := by
  refine ⟨rfl, ?_, ?_, ?_⟩
  · rw [norm_002]; norm_num
  · have hsum : sumFaceNormals (get_linked_faces c7vert2 "face") =
        ⟨0 + 0 + 0, 0 + 0 + 0, 0 + 1 + (-1)⟩ := rfl
    have hz : (⟨0 + 0 + 0, 0 + 0 + 0, 0 + 1 + (-1)⟩ : Vec3) = ⟨0, 0, 0⟩ := by
      rw [Vec3.ext_iff3]
      norm_num
    have hnormed : Vec3.normalized ⟨0, 0, 0⟩ = ⟨0, 0, 0⟩ := by
      rw [Vec3.normalized, if_pos norm_zero_vec]
    rw [get_smoothed_vertex_normals_eq]
    have hcv : contributingVerts [c7vert2] "face" = [c7vert2] := rfl
    rw [hcv]
    simp only [List.map_cons, List.map_nil]
    rw [hsum, hz, hnormed]
  · rw [norm_zero_vec]; norm_num

/-- **C7 amended** (Normalization invariant): assuming the mesh supplies
unit face normals and unit input split normals, every normal written by the
smoothing aggregators is unit-length or the zero vector (the zero vector
occurring exactly when the summed face normals cancel), every normal written
by `harden_normals` or `flip_normals` is unit-length, and the Normal Writer
merge only ever writes override vectors or input split normals, so its
output is unit-length-or-zero whenever its override set is.  The Direct
Normal Setter is excluded: it writes the caller-supplied direction without
normalizing it (on both its hard and soft paths). -/
theorem normalization_invariant_amended
    (bm_verts : List BMVert) (smooth_mode : String)
    (me_polygons : List BPoly) (clnors : List Vec3)
    (hfaces : ∀ p ∈ me_polygons, Vec3.norm p.normal = 1)
    (hin : ∀ c ∈ clnors, Vec3.norm c = 1) :
    (∀ nv ∈ (get_smoothed_vertex_normals bm_verts smooth_mode).vertex_normals,
      Vec3.norm nv = 1 ∨ nv = 0) ∧
    (∀ nv ∈ (get_face_weighted_normals bm_verts smooth_mode).vertex_normals,
      Vec3.norm nv = 1 ∨ nv = 0) ∧
    (∀ c ∈ harden_normals me_polygons clnors, Vec3.norm c = 1) ∧
    (∀ c ∈ flip_normals me_polygons clnors, Vec3.norm c = 1) ∧
    (∀ (me_loops : List MLoop) (vis : List Nat) (vns : List Vec3)
        (out : List Vec3),
      (∀ i (h : i < me_loops.length), (me_loops.get ⟨i, h⟩).index = i) →
      vis.length ≤ vns.length →
      (∀ nv ∈ vns, Vec3.norm nv = 1 ∨ nv = 0) →
      (∀ l ∈ me_loops, Vec3.norm l.normal = 1) →
      set_smooth_normals me_loops vis vns = some out →
      ∀ c ∈ out, Vec3.norm c = 1 ∨ c = 0) := by
  refine ⟨?_, ?_, ?_, ?_, ?_⟩
  · intro nv hnv
    rw [get_smoothed_vertex_normals_eq] at hnv
    simp only [List.mem_map] at hnv
    obtain ⟨v, _, hval⟩ := hnv
    rw [← hval]
    exact Vec3.norm_normalized_or _
  · intro nv hnv
    by_cases hmode : smooth_mode = "all"
    · subst hmode
      rw [get_face_weighted_normals_eq_all] at hnv
      simp only [List.mem_map] at hnv
      obtain ⟨v, _, hval⟩ := hnv
      rw [← hval]
      exact Vec3.norm_normalized_or _
    · rw [get_face_weighted_normals_eq_masked bm_verts smooth_mode hmode] at hnv
      simp only [List.mem_map] at hnv
      obtain ⟨v, _, hval⟩ := hnv
      rw [← hval]
      exact Vec3.norm_normalized_or _
  · rw [harden_normals_eq_fold]
    exact maskedWrite_fold_norm _ me_polygons clnors hin
      (fun p hp _ => hfaces p hp)
  · rw [flip_normals_eq_fold]
    exact flip_fold_norm me_polygons clnors hin
  · intro me_loops vis vns out hidx hlen hvns hloops hout c hc
    rw [set_smooth_normals_eq_map me_loops vis vns hidx hlen] at hout
    have hout' : out = me_loops.map (mergeVal vis vns) := by
      injection hout.symm
    subst hout'
    rw [List.mem_map] at hc
    obtain ⟨l, hl, hlc⟩ := hc
    rw [← hlc, mergeVal]
    by_cases hmem : l.vertex_index ∈ vis
    · rw [if_pos hmem]
      have hlt : List.indexOf l.vertex_index vis < vns.length :=
        lt_of_lt_of_le (List.indexOf_lt_length.mpr hmem) hlen
      rw [List.getD_eq_getElem?_getD, List.getElem?_eq_getElem hlt]
      exact hvns _ (List.getElem_mem hlt)
    · rw [if_neg hmem]
      exact Or.inl (hloops l hl)

theorem norm_001 : Vec3.norm ⟨0, 0, 1⟩ = 1 := by
  show Real.sqrt ((0 : ℝ) ^ 2 + 0 ^ 2 + 1 ^ 2) = 1
  rw [show (0 : ℝ) ^ 2 + 0 ^ 2 + 1 ^ 2 = 1 by norm_num, Real.sqrt_one]

theorem norm_100 : Vec3.norm ⟨1, 0, 0⟩ = 1 := by
  show Real.sqrt ((1 : ℝ) ^ 2 + 0 ^ 2 + 0 ^ 2) = 1
  rw [show (1 : ℝ) ^ 2 + 0 ^ 2 + 0 ^ 2 = 1 by norm_num, Real.sqrt_one]

/-- Witness polygon for C7 (unit face normal). -/
def c7poly : BPoly := ⟨0, 1, true, ⟨0, 0, 1⟩⟩

theorem normalization_invariant_amended_witness :
    (∀ p ∈ [c7poly], Vec3.norm p.normal = 1) ∧
    (∀ c ∈ [(⟨1, 0, 0⟩ : Vec3)], Vec3.norm c = 1) ∧
    ((∀ nv ∈ (get_smoothed_vertex_normals [c7vert] "face").vertex_normals,
      Vec3.norm nv = 1 ∨ nv = 0) ∧
    (∀ nv ∈ (get_face_weighted_normals [c7vert] "face").vertex_normals,
      Vec3.norm nv = 1 ∨ nv = 0) ∧
    (∀ c ∈ harden_normals [c7poly] [(⟨1, 0, 0⟩ : Vec3)], Vec3.norm c = 1) ∧
    (∀ c ∈ flip_normals [c7poly] [(⟨1, 0, 0⟩ : Vec3)], Vec3.norm c = 1) ∧
    (∀ (me_loops : List MLoop) (vis : List Nat) (vns : List Vec3)
        (out : List Vec3),
      (∀ i (h : i < me_loops.length), (me_loops.get ⟨i, h⟩).index = i) →
      vis.length ≤ vns.length →
      (∀ nv ∈ vns, Vec3.norm nv = 1 ∨ nv = 0) →
      (∀ l ∈ me_loops, Vec3.norm l.normal = 1) →
      set_smooth_normals me_loops vis vns = some out →
      ∀ c ∈ out, Vec3.norm c = 1 ∨ c = 0)) :=
  ⟨by
      intro p hp
      rw [List.mem_singleton] at hp
      subst hp
      exact norm_001,
    by
      intro c hc
      rw [List.mem_singleton] at hc
      subst hc
      exact norm_100,
    normalization_invariant_amended [c7vert] "face" [c7poly] [⟨1, 0, 0⟩]
      (by
        intro p hp
        rw [List.mem_singleton] at hp
        subst hp
        exact norm_001)
      (by
        intro c hc
        rw [List.mem_singleton] at hc
        subst hc
        exact norm_100)⟩
